import Mathlib

set_option maxRecDepth 40000

/-!
Verification of `docs/src/main/scripts/update-latest-and-redirects.py`.

The script maintains a versioned static documentation tree.  Its core consists of
`create_canonical_tag` (locate and rewrite `<link rel="canonical">` tags, line by
line, via Python regular expressions), `generate_canonical_url` and
`rel_path_replace` (cross version URL synthesis), `redirect_removed_file`
(synthesis of meta refresh redirect pages, gated by an existence check) and the
two tree walkers.

Shallow embedding conventions:
* file contents are `List Char`; a document is split into lines exactly as
  Python `readlines` does (`pySplitLines`);
* filesystem state is an association list from paths (`List String`, the path
  segments) to contents; `open(..., "w")` is `writeFS` (replace or append);
* the Python regular expressions used by the script are operationalised as
  executable scanners over `List Char`, one definition per regex, matching the
  semantics of `re.search` / `re.match` / `re.findall` / `re.sub` at the call
  sites (patterns are anchored literals combined with `\s*`, `.*?` and the
  quote classes, so their matching behaviour is first match, with the lazy
  `.*?` stopping at the first `>` and `.` never crossing a newline);
* `BeautifulSoup` is third party code; `redirect_removed_file` depends on the
  parsed document only through the first meta refresh tag and the first
  canonical link, so the embedding abstracts the parser as a function argument
  producing those two results; each result records both whether the tag was
  found and whether the subscripted attribute (`content` resp. `href`) is
  present, because subscripting a found tag that lacks the attribute raises an
  uncaught `KeyError` (line 254);
* an uncaught Python exception (for example an out of range list index) is
  modelled as `Option.none` of the filesystem-level operations: the file is
  left unchanged and the walk stops.
-/

/-- Python `\s` on the ASCII range (the documents handled by the script are
ASCII HTML): space, tab, newline, carriage return, vertical tab, form feed. -/
def pySpace (c : Char) : Bool :=
  c = ' ' || c = '\t' || c = '\n' || c = '\r' || c = Char.ofNat 11 || c = Char.ofNat 12

/-- The two quote characters accepted by the regex class made of a double and a
single quote. -/
def quoteChar (c : Char) : Bool :=
  c = '"' || c = Char.ofNat 39

/-- `s` begins with the pattern `p` (literal match). -/
def startsWithL (p s : List Char) : Bool :=
  s.take p.length == p

/-- `s` ends with the pattern `p` (Python `str.endswith`). -/
def endsWithL (p s : List Char) : Bool :=
  s.drop (s.length - p.length) == p && p.length ≤ s.length

/-- `p` occurs somewhere in `s` as a contiguous substring (Python `in`). -/
def hasSubL (p s : List Char) : Bool :=
  match s with
  | [] => p == []
  | _ :: rest => startsWithL p s || hasSubL p rest

/-- Index of the first occurrence of the literal `</head>` in a line:
`re.search("</head>\\s*", line).start(0)` (the trailing `\s*` never moves the
start of the leftmost match, the pattern begins with a literal). -/
def firstHeadIdx (s : List Char) : Option Nat :=
  match s with
  | [] => none
  | _ :: rest =>
    if startsWithL ("</head>".data) s then some 0
    else (firstHeadIdx rest).map (· + 1)

/-- `s` begins with `http-equiv=` followed by a quoted `refresh` (the tail of
the redirect detection regex; the two quotes are independent character
classes). -/
def refreshAt (s : List Char) : Bool :=
  startsWithL ("http-equiv=".data) s &&
  (match s.drop 11 with
   | q :: r2 =>
     quoteChar q && startsWithL ("refresh".data) r2 &&
       (match r2.drop 7 with
        | q2 :: _ => quoteChar q2
        | [] => false)
   | [] => false)

/-- The `.*http-equiv=["']refresh["']` part: the gap matched by `.*` may not
contain a newline. -/
def refreshAfter (s : List Char) : Bool :=
  match s with
  | [] => false
  | c :: rest => refreshAt s || (c ≠ '\n' && refreshAfter rest)

/-- `re.search("meta.*http-equiv=[\"']refresh[\"']", line)`: the redirect page
detection of `create_canonical_tag` (line 171 of the script). -/
def searchMetaRefresh (s : List Char) : Bool :=
  match s with
  | [] => false
  | _ :: rest =>
    (startsWithL ("meta".data) s && refreshAfter (s.drop 4)) || searchMetaRefresh rest

/-- The `.*?>\n$` tail of the whole-line canonical tag regex: the rest of the
line is anything newline free, then `>`, a newline, and the end of the string
(Python `$` also matches just before one final trailing newline). -/
def canonTail (s : List Char) : Bool :=
  match s with
  | ['>', '\n'] => true
  | ['>', '\n', '\n'] => true
  | c :: rest => c ≠ '\n' && canonTail rest
  | [] => false

/-- `re.match("^\\s*<link rel=[\"']canonical[\"'].*?>\n$", line)`: a line that
is exactly one canonical link tag (line 174 of the script). -/
def wholeLineCanonMatch (line : List Char) : Bool :=
  let r := line.dropWhile pySpace
  startsWithL ("<link rel=".data) r &&
  (match r.drop 10 with
   | q :: r2 =>
     quoteChar q && startsWithL ("canonical".data) r2 &&
       (match r2.drop 9 with
        | q2 :: r3 => quoteChar q2 && canonTail r3
        | [] => false)
   | [] => false)

/-- `re.match("^\\s*</head>\n$", line)`: a line that is exactly the head
closing tag (line 180 of the script). -/
def wholeLineHeadMatch (line : List Char) : Bool :=
  let r := line.dropWhile pySpace
  r == ("</head>".data ++ ['\n']) || r == ("</head>".data ++ ['\n', '\n'])

/-- Consume up to and including the first `>` (the lazy `.*?>`, where `.` does
not match a newline); returns the number of characters consumed and the rest. -/
def upToGt (s : List Char) : Option (Nat × List Char) :=
  match s with
  | [] => none
  | c :: rest =>
    if c = '>' then some (1, rest)
    else if c = '\n' then none
    else (upToGt rest).map (fun p => (p.1 + 1, p.2))

theorem upToGt_length {s : List Char} {n : Nat} {r : List Char}
    (h : upToGt s = some (n, r)) : r.length < s.length := by
  induction s generalizing n r with
  | nil => simp [upToGt] at h
  | cons c rest ih =>
    rw [upToGt] at h
    by_cases h1 : c = '>'
    · simp only [h1, if_true] at h
      obtain ⟨-, h3⟩ := Prod.mk.injEq _ _ _ _ ▸ (Option.some.inj h)
      subst h3
      simp
    · by_cases h2 : c = '\n'
      · simp [h1, h2] at h
      · simp only [h1, h2, if_false, Option.map_eq_some'] at h
        obtain ⟨⟨m, r2⟩, hrec, hpair⟩ := h
        obtain ⟨-, h3⟩ := Prod.mk.injEq _ _ _ _ ▸ hpair
        subst h3
        exact Nat.lt_succ_of_lt (ih hrec)

/-- A single match of `<link rel=["']canonical["'].*?>\s*` starting at the head
of `s`: the matched length (the lazy `.*?` stops at the first `>`, the greedy
`\s*` then takes all following whitespace) and the remainder of the string. -/
def canonTagAt (s : List Char) : Option (Nat × List Char) :=
  if startsWithL ("<link rel=".data) s then
    match s.drop 10 with
    | q :: r2 =>
      if quoteChar q && startsWithL ("canonical".data) r2 then
        match r2.drop 9 with
        | q2 :: r3 =>
          if quoteChar q2 then
            match upToGt r3 with
            | none => none
            | some (g, r4) =>
              some (10 + 1 + 9 + 1 + g + (r4.takeWhile pySpace).length,
                r4.dropWhile pySpace)
          else none
        | [] => none
      else none
    | [] => none
  else none

theorem canonTagAt_length {s : List Char} {n : Nat} {r : List Char}
    (h : canonTagAt s = some (n, r)) : r.length < s.length := by
  unfold canonTagAt at h
  by_cases h1 : startsWithL ("<link rel=".data) s = true
  · simp only [h1, if_true] at h
    cases hq : s.drop 10 with
    | nil => rw [hq] at h; exact absurd h (by simp)
    | cons q r2 =>
      rw [hq] at h
      by_cases h2 : (quoteChar q && startsWithL ("canonical".data) r2) = true
      · simp only [h2, if_true] at h
        have hlen2 : r2.length + 11 = s.length := by
          have hc := congrArg List.length hq
          simp at hc
          omega
        cases hr3 : r2.drop 9 with
        | nil => rw [hr3] at h; exact absurd h (by simp)
        | cons q2 r3 =>
          rw [hr3] at h
          by_cases h4 : quoteChar q2 = true
          · simp only [h4, if_true] at h
            cases hg : upToGt r3 with
            | none => rw [hg] at h; exact absurd h (by simp)
            | some p =>
              obtain ⟨g, r4⟩ := p
              rw [hg] at h
              obtain ⟨-, hr⟩ := Prod.mk.injEq _ _ _ _ ▸ (Option.some.inj h)
              have hup := upToGt_length hg
              have hr4 : r3.length + 10 = r2.length := by
                have hc := congrArg List.length hr3
                simp at hc
                omega
              have hdw : (r4.dropWhile pySpace).length ≤ r4.length :=
                List.Sublist.length_le (List.dropWhile_sublist _)
              subst hr
              omega
          · simp only [h4, if_false] at h
            exact absurd h (by simp)
      · simp only [h2] at h
        exact absurd h (by simp)
  · simp only [h1] at h
    exact absurd h (by simp)

/-- Fuelled version of the inline canonical tag scan, structurally recursive
in the fuel so that concrete documents evaluate inside the kernel; every match
consumes at least one character, so fuel `s.length + 1` never runs out. -/
def canonScanF : Nat → List Char → List Char × Nat × Nat
  | 0, s => (s, 0, 0)
  | _ + 1, [] => ([], 0, 0)
  | fuel + 1, c :: rest =>
    match canonTagAt (c :: rest) with
    | some (n, after) =>
      let r := canonScanF fuel after
      (r.1, r.2.1 + n, r.2.2 + 1)
    | none =>
      let r := canonScanF fuel rest
      (c :: r.1, r.2.1, r.2.2)

theorem canonScanF_fuel : ∀ (f1 f2 : Nat) (s : List Char), s.length < f1 →
    s.length < f2 → canonScanF f1 s = canonScanF f2 s := by
  intro f1
  induction f1 with
  | zero =>
    intro f2 s h1 _
    exact absurd h1 (Nat.not_lt_zero _)
  | succ f1 ih =>
    intro f2 s h1 h2
    cases f2 with
    | zero => exact absurd h2 (Nat.not_lt_zero _)
    | succ f2 =>
      cases s with
      | nil => rfl
      | cons c rest =>
        rw [canonScanF, canonScanF]
        cases hm : canonTagAt (c :: rest) with
        | some p =>
          obtain ⟨n, after⟩ := p
          have hl := canonTagAt_length hm
          simp only []
          rw [ih f2 after (by simp at hl h1 ⊢; omega) (by simp at hl h2 ⊢; omega)]
        | none =>
          simp only []
          rw [ih f2 rest (by simp at h1 ⊢; omega) (by simp at h2 ⊢; omega)]

/-- Scan a line for all non overlapping matches of the inline canonical tag
regex, left to right, exactly as `re.findall` and `re.sub` do: returns the line
with all matches removed, the total number of characters removed
(`char_offset` in the script), and the number of matches. -/
def canonScan (s : List Char) : List Char × Nat × Nat :=
  canonScanF (s.length + 1) s

/-- The one step unfolding of `canonScan`, as if it recursed structurally. -/
theorem canonScan_cons (c : Char) (rest : List Char) :
    canonScan (c :: rest) =
      match canonTagAt (c :: rest) with
      | some (n, after) =>
        ((canonScan after).1, (canonScan after).2.1 + n, (canonScan after).2.2 + 1)
      | none =>
        (c :: (canonScan rest).1, (canonScan rest).2.1, (canonScan rest).2.2) := by
  show canonScanF (rest.length + 1 + 1) (c :: rest) = _
  rw [canonScanF]
  cases hm : canonTagAt (c :: rest) with
  | some p =>
    obtain ⟨n, after⟩ := p
    have hl := canonTagAt_length hm
    simp only []
    rw [canonScanF_fuel (rest.length + 1) (after.length + 1) after
      (by simp at hl ⊢; omega) (Nat.lt_succ_self _)]
    rfl
  | none =>
    simp only []
    rfl

/-- The count of canonical tag matches in a whole document, line by line. -/
def canonCountDoc (ls : List (List Char)) : Nat :=
  (ls.map (fun l => (canonScan l).2.2)).sum

/-- Python `readlines`: split after every newline, keeping the newline; a final
piece without a newline is kept if nonempty. -/
def pySplitAux (s acc : List Char) : List (List Char) :=
  match s with
  | [] => if acc = [] then [] else [acc.reverse]
  | c :: rest =>
    if c = '\n' then (acc.reverse ++ ['\n']) :: pySplitAux rest []
    else pySplitAux rest (c :: acc)

def pySplitLines (s : List Char) : List (List Char) :=
  pySplitAux s []

/-- Python slice `s[:c]` for an integer `c` that may be negative. -/
def pyTake (c : Int) (s : List Char) : List Char :=
  if 0 ≤ c then s.take c.toNat
  else s.take (s.length - min s.length (-c).toNat)

/-- Python slice `s[c:]` for an integer `c` that may be negative. -/
def pyDrop (c : Int) (s : List Char) : List Char :=
  if 0 ≤ c then s.drop c.toNat
  else s.drop (s.length - min s.length (-c).toNat)

/-- Python `list.insert(i, x)` (clamps at the end). -/
def pyInsert (i : Nat) (x : List Char) (l : List (List Char)) : List (List Char) :=
  l.take i ++ [x] ++ l.drop i

/-! ## The per-document loop of `create_canonical_tag` (lines 160-208) -/

/-- Result of one run of `create_canonical_tag` over one document.
`refreshSkip` is the early `return` on a line matching the redirect regex
(line 172), `missingHead` is the reported skip when no head closing tag was
found (lines 186-190, the only branch that prints a diagnostic), `indexError`
is the uncaught `IndexError` raised when the recorded head line no longer
exists after the deletions (line 198), and `written` carries the new line
sequence written back to the file (lines 207-208). -/
inductive CreateOutcome where
  | refreshSkip
  | missingHead
  | indexError
  | written (ls : List (List Char))
deriving DecidableEq

/-- The `for idx, line in enumerate(c_file)` loop (lines 168-184): returns the
possibly modified lines, the indices of whole-line canonical tags
(`existing_canon_tags`, collected in ascending order) and the recorded head
closing tag location (`None` column meaning the tag occupies its own line), or
`none` for the early return on a redirect line. -/
def scanLines : List (List Char) → Nat → List Nat → Option (Nat × Option Int) →
    Option (List (List Char) × List Nat × Option (Nat × Option Int))
  | [], _, ex, hd => some ([], ex, hd)
  | l :: rest, idx, ex, hd =>
    if searchMetaRefresh l then none
    else
      let whole := wholeLineCanonMatch l
      let cnt := (canonScan l).2.2
      let l2 := if whole then l else if cnt ≠ 0 then (canonScan l).1 else l
      let off : Nat := if whole then 0 else if cnt ≠ 0 then (canonScan l).2.1 else 0
      let ex2 := if whole then ex ++ [idx] else ex
      let hd2 :=
        match hd with
        | some p => some p
        | none =>
          if wholeLineHeadMatch l then some (idx, none)
          else
            match firstHeadIdx l with
            | some s => some (idx, some ((s : Int) - (off : Int)))
            | none => none
      (scanLines rest (idx + 1) ex2 hd2).map (fun r => (l2 :: r.1, r.2))

/-- The deletion loop `for idx in sorted(existing_canon_tags, reverse=True)`
(lines 192-195): delete each index, decrementing the head line for every
deleted index below it. -/
def deleteIdxs : List Nat → List (List Char) → Nat → List (List Char) × Nat
  | [], ls, h => (ls, h)
  | i :: rest, ls, h => deleteIdxs rest (ls.eraseIdx i) (if i < h then h - 1 else h)

/-- The document transformation of `create_canonical_tag` (lines 160-208),
applied to the `readlines` result, for an already rendered canonical tag. -/
def stampDoc (tag : List Char) (ls : List (List Char)) : CreateOutcome :=
  match scanLines ls 0 [] none with
  | none => .refreshSkip
  | some (_, _, none) => .missingHead
  | some (ls2, ex, some (hl, hc)) =>
    let d := deleteIdxs ex.reverse ls2 hl
    match hc with
    | none => .written (pyInsert d.2 (tag ++ ['\n']) d.1)
    | some c =>
      if hlt : d.2 < d.1.length then
        .written (d.1.set d.2
          (pyTake c (d.1.get ⟨d.2, hlt⟩) ++ tag ++ [' '] ++ pyDrop c (d.1.get ⟨d.2, hlt⟩)))
      else .indexError

/-! ## Path model and URL synthesis -/

/-- Join path segments with `/` (both `os.sep` and the URL separator are the
forward slash on the platform the script targets, and `str.replace(os.sep, "/")`
is then the identity). -/
def joinSegs : List String → List Char
  | [] => []
  | [s] => s.data
  | s :: rest => s.data ++ '/' :: joinSegs rest

/-- `re.sub(REL_PATH_PATTERN, rel_path_replace, s)` (lines 47 and 90-101).
The pattern `(/)?([^/]+)` matches each maximal run of non separator characters
together with one separator directly in front of it when there is one;
`rel_path_replace` turns the separator group into a separator and the run into
`..`, and `re.sub` keeps unmatched characters (separators not followed by a
run).  Character for character that means: every `/` of the input is kept, and
every maximal nonempty run of non-`/` characters becomes `..` — which is what
this scanner produces, carrying the state "inside a run whose `..` has already
been emitted". -/
def relSubSM : Bool → List Char → List Char
  | _, [] => []
  | inRun, c :: rest =>
    if c = '/' then '/' :: relSubSM false rest
    else if inRun then relSubSM true rest
    else '.' :: '.' :: relSubSM true rest

def relSub (s : List Char) : List Char :=
  relSubSM false s

/-- `generate_canonical_url` (lines 104-133).  Paths are lists of segments;
`relative_to` is modelled by dropping the ancestor prefix (the callers always
pass an ancestor, as the docstring requires), and the final
`PurePath.joinpath` plus `str` is the slash join of the two nonempty parts. -/
def generate_canonical_url (base canonFile canonDir : List String)
    (currentDirname : String) : List String × List Char :=
  let redirectFile := (base ++ [currentDirname]) ++ canonFile.drop canonDir.length
  let url := relSub (joinSegs (redirectFile.drop base.length)) ++
    '/' :: joinSegs (canonFile.drop base.length)
  (redirectFile, url)

/-- The canonical URL chosen by `create_canonical_tag` (lines 151-157):
the relative URL from `generate_canonical_url`, overridden in absolute mode by
a root anchored slash join. -/
def theCanonicalUrl (base cur p : List String) (version : String) (useAbs : Bool) :
    List Char :=
  if useAbs then '/' :: joinSegs (p.drop base.length)
  else (generate_canonical_url base p cur version).2

/-- `canonical_tag = f'<link rel="canonical" href="{canonical_url}">'`
(line 158). -/
def mkCanonicalTag (url : List Char) : List Char :=
  ("<link rel=\"canonical\" href=\"").data ++ url ++ ("\">").data

/-- Split a URL string at slashes (for stating the round trip property of the
relative URLs). -/
def splitSlashAux : List Char → List Char → List String
  | [], acc => [⟨acc.reverse⟩]
  | c :: rest, acc =>
    if c = '/' then (⟨acc.reverse⟩ : String) :: splitSlashAux rest []
    else splitSlashAux rest (c :: acc)

def splitSlash (s : List Char) : List String :=
  splitSlashAux s []

/-- Standard dot segment normalization: resolve the segments of a relative URL
against a directory given by its segments below the web root; `..` pops one
segment and is clamped at the root, every other segment descends. -/
def resolveDots (dir segs : List String) : List String :=
  segs.foldl (fun acc s => if s = ".." then acc.dropLast else acc ++ [s]) dir

/-! ## Filesystem model -/

/-- A filesystem is an association list from paths (segment lists) to file
contents.  `lookupFS` is `open(p, "r")` / `Path.exists`, `writeFS` is
`open(p, "w")` (truncate or create). -/
abbrev FS := List (List String × List Char)

def lookupFS : FS → List String → Option (List Char)
  | [], _ => none
  | (q, c) :: rest, p => if q = p then some c else lookupFS rest p

def writeFS : FS → List String → List Char → FS
  | [], p, c => [(p, c)]
  | (q, d) :: rest, p, c =>
    if q = p then (p, c) :: rest else (q, d) :: writeFS rest p c

/-- `create_canonical_tag` at the filesystem level (lines 136-208): read the
file, transform, write back; `none` models an uncaught exception (missing file
or the `IndexError` of line 198), which aborts the whole program. -/
def create_canonical_tag (base cur p : List String) (version : String)
    (useAbs : Bool) (fs : FS) : Option FS :=
  match lookupFS fs p with
  | none => none
  | some c =>
    match stampDoc (mkCanonicalTag (theCanonicalUrl base cur p version useAbs))
        (pySplitLines c) with
    | .refreshSkip => some fs
    | .missingHead => some fs
    | .indexError => none
    | .written ls => some (writeFS fs p ls.flatten)

/-! ## Walkers -/

def underDir (d p : List String) : Bool :=
  p.take d.length == d

def fileName (p : List String) : String :=
  p.getLastD ("")

/-- The files visited by `canonical_tag_walker` (lines 288-297): every file
under the walked directory whose name ends with `.html`. -/
def canonicalTargets (cur : List String) (fs : FS) : List (List String) :=
  (fs.filter (fun e => underDir cur e.1 && endsWithL (".html".data) (fileName e.1).data)).map
    Prod.fst

def walkFoldC (base cur : List String) (version : String) (useAbs : Bool) :
    List (List String) → FS → Option FS
  | [], fs => some fs
  | p :: ps, fs =>
    match create_canonical_tag base cur p version useAbs fs with
    | none => none
    | some fs2 => walkFoldC base cur version useAbs ps fs2

/-- `canonical_tag_walker` (lines 275-297). -/
def canonical_tag_walker (base cur : List String) (version : String)
    (useAbs : Bool) (fs : FS) : Option FS :=
  walkFoldC base cur version useAbs (canonicalTargets cur fs) fs

/-! ## Redirect synthesis -/

/-- The six part `REMOVED_REDIRECT_TEMPLATE` (lines 27-45). -/
def RRT0 : List Char :=
  ("<!DOCTYPE html>\n<html lang=\"en\">\n  <head>\n    <meta charset=\"UTF-8\">\n    <meta http-equiv=\"refresh\" content=\"3; url=").data

def RRT1 : List Char :=
  ("\">\n    <link rel=\"canonical\" href=\"").data

def RRT2 : List Char :=
  ("\" />\n  </head>\n  <body>\n    <p>The page does not exist in this version (").data

def RRT3 : List Char :=
  ("). You will be redirected to the last available version in 3 seconds.</p>\n    <p>If the page doesn").data ++
    Char.ofNat 39 :: ("t open, click the following link: <a href=\"").data

def RRT4 : List Char :=
  ("\">").data

def RRT5 : List Char :=
  ("</a></p>\n  </body>\n</html>").data

/-- `redirect_url.join(REMOVED_REDIRECT_TEMPLATE[0:3]) + version_text +
redirect_url.join(REMOVED_REDIRECT_TEMPLATE[3:6])` (lines 257-268). -/
def renderRedirect (url : List Char) (currentVersion : String)
    (productName : Option String) : List Char :=
  RRT0 ++ url ++ RRT1 ++ url ++ RRT2 ++
    (match productName with
     | some pn => pn.data ++ ' ' :: currentVersion.data
     | none => currentVersion.data) ++
    RRT3 ++ url ++ RRT4 ++ url ++ RRT5

/-- What `redirect_removed_file` extracts from the BeautifulSoup parse of the
previous version document (lines 247-255).  `refreshContent` is the first
`<meta http-equiv="refresh">` tag: the outer `Option` records whether `find`
returned a tag at all, the inner whether that tag carries a `content`
attribute.  `canonHref` is the first `<link rel="canonical">` tag with its
`href` attribute, recorded the same way.  The parser itself is third party
code, so the embedding takes it as a parameter; the function under
verification depends on the document only through these two fields. -/
structure PrevParse where
  refreshContent : Option (Option (List Char))
  canonHref : Option (Option (List Char))

/-- Lines 247-255: when the parse found a meta refresh tag, line 253 also
looks for a canonical link, and line 254 evaluates
`canon_link and canon_link["href"] in static_redirect["content"]`.  The `and`
short-circuits on a missing canonical link; otherwise `canon_link["href"]` is
evaluated first and `static_redirect["content"]` second, and subscripting a
found tag that lacks the attribute raises an uncaught `KeyError`, modelled as
`none`.  On success the result is the URL the redirect will use: the
canonical href when it occurs inside the refresh content, the precomputed
`url1` otherwise. -/
def inheritUrl (pp : PrevParse) (url1 : List Char) : Option (List Char) :=
  match pp.refreshContent, pp.canonHref with
  | some contentAttr, some hrefAttr =>
    match hrefAttr, contentAttr with
    | some href, some content => some (if hasSubL href content then href else url1)
    | _, _ => none
  | _, _ => some url1

/-- The configuration in which line 254 raises `KeyError`: the parse found
both tags but the canonical link lacks `href` or the refresh tag lacks
`content`. -/
def parseCrash (pp : PrevParse) : Bool :=
  match pp.refreshContent, pp.canonHref with
  | some contentAttr, some hrefAttr => hrefAttr.isNone || contentAttr.isNone
  | _, _ => false

/-- `redirect_removed_file` (lines 211-272): compute the destination and the
candidate URL, stop if the destination exists, otherwise read the previous
document, inherit an existing static redirect when the canonical link href
occurs inside the refresh `content` attribute, render the template and write
the destination (creating parent directories, which the path model keeps
implicit).  `none` models an uncaught exception: a failing `open`, or the
`KeyError` of line 254 (`inheritUrl` returning `none`). -/
def redirect_removed_file (parse : List Char → PrevParse) (base : List String)
    (previousDocsFile : List String) (currentDirname previousDirname : String)
    (currentVersion : String) (useAbs : Bool) (productName : Option String)
    (fs : FS) : Option FS :=
  let g := generate_canonical_url base previousDocsFile
    (base ++ [previousDirname]) currentDirname
  let url1 := if useAbs then '/' :: joinSegs (previousDocsFile.drop base.length) else g.2
  if (lookupFS fs g.1).isSome then some fs
  else
    match lookupFS fs previousDocsFile with
    | none => none
    | some contents =>
      match inheritUrl (parse contents) url1 with
      | none => none
      | some url2 =>
        some (writeFS fs g.1 (renderRedirect url2 currentVersion productName))

/-- The files visited by `redirect_removed_walker` (lines 317-328): note the
filter is `f.endswith("html")`, without the dot. -/
def redirectTargets (prevDir : List String) (fs : FS) : List (List String) :=
  (fs.filter (fun e => underDir prevDir e.1 && endsWithL ("html".data) (fileName e.1).data)).map
    Prod.fst

def walkFoldR (parse : List Char → PrevParse) (base : List String)
    (currentDirname previousDirname : String) (currentVersion : String)
    (useAbs : Bool) (productName : Option String) :
    List (List String) → FS → Option FS
  | [], fs => some fs
  | p :: ps, fs =>
    match redirect_removed_file parse base p currentDirname previousDirname
        currentVersion useAbs productName fs with
    | none => none
    | some fs2 =>
      walkFoldR parse base currentDirname previousDirname currentVersion useAbs
        productName ps fs2

/-- `redirect_removed_walker` (lines 300-328). -/
def redirect_removed_walker (parse : List Char → PrevParse) (base : List String)
    (currentDirname previousDirname : String) (currentVersion : String)
    (useAbs : Bool) (productName : Option String) (fs : FS) : Option FS :=
  walkFoldR parse base currentDirname previousDirname currentVersion useAbs
    productName (redirectTargets (base ++ [previousDirname]) fs) fs

/-! ## Line classification (the document class for the positive theorems)

The predicates classify a physical line by what the scanners of
`create_canonical_tag` see in it.  They are decidable, so concrete documents
can be checked by evaluation. -/

/-- The line is newline terminated and contains no interior newline (the shape
of every line `readlines` produces except possibly the last). -/
def endsNlOnly (l : List Char) : Bool :=
  match l.reverse with
  | [] => false
  | c :: rest => c = '\n' && !(decide ('\n' ∈ rest))

/-- A line none of the scanners react to: no redirect marker, no canonical tag
(neither whole line nor inline), no head closing tag anywhere. -/
def inertLineB (l : List Char) : Bool :=
  !searchMetaRefresh l && !wholeLineCanonMatch l && (canonScan l).2.2 == 0 &&
    firstHeadIdx l == none && !wholeLineHeadMatch l && endsNlOnly l

/-- A line that is exactly one canonical link tag and contains no head closing
tag and no redirect marker. -/
def tagLineB (l : List Char) : Bool :=
  !searchMetaRefresh l && wholeLineCanonMatch l && firstHeadIdx l == none &&
    !wholeLineHeadMatch l && endsNlOnly l

/-- A line that is exactly the head closing tag (and nothing the other
scanners react to). -/
def headLineB (l : List Char) : Bool :=
  !searchMetaRefresh l && !wholeLineCanonMatch l && (canonScan l).2.2 == 0 &&
    wholeLineHeadMatch l && endsNlOnly l

/-- The rendered canonical tag behaves as a canonical tag line: appended to a
newline it is scanned as exactly one whole-line canonical tag (true of
`mkCanonicalTag url` whenever `url` contains no newline, no `</head>` and no
redirect marker, as every URL built from real path segments does). -/
def tagOKb (tag : List Char) : Bool :=
  tagLineB (tag ++ ['\n']) && (canonScan (tag ++ ['\n'])).2.2 == 1

/-- A document whose lines fall into the classified shapes: a unique head
closing line, preceded and followed by inert or whole-line canonical tag
lines. -/
def GoodDoc (c : List Char) : Prop :=
  ∃ A h B, pySplitLines c = A ++ h :: B ∧
    (∀ l ∈ A, inertLineB l = true ∨ tagLineB l = true) ∧ headLineB h = true ∧
    (∀ l ∈ B, inertLineB l = true ∨ tagLineB l = true)

/-- The indices (counted from `i`) of the lines matching the whole-line
canonical tag regex: the value `existing_canon_tags` accumulates. -/
def tagIdxsFrom : List (List Char) → Nat → List Nat
  | [], _ => []
  | l :: rest, i =>
    (if wholeLineCanonMatch l then [i] else []) ++ tagIdxsFrom rest (i + 1)

/-- The canonical tag `create_canonical_tag` renders for a given file. -/
def theTag (base cur p : List String) (version : String) (useAbs : Bool) : List Char :=
  mkCanonicalTag (theCanonicalUrl base cur p version useAbs)

/-- The contents a file holds after one run of `create_canonical_tag` on it
(unchanged unless the outcome is a write). -/
def stampFile (tag c : List Char) : List Char :=
  match stampDoc tag (pySplitLines c) with
  | .written ls => ls.flatten
  | _ => c

/-! ## Concrete documents and filesystems for the counterexamples and
witnesses -/

/-- A document whose head closing tag shares its line with a canonical tag:
the inline removal regex swallows the trailing newline, so the first stamping
pass merges lines and the second pass deletes the merged line wholesale. -/
def c1Doc : List Char :=
  ("<head>\n</head> <link rel=\"canonical\" href=\"x\">\n<body>\n</body>\n").data

def c1Fs : FS := [(["docs", "latest", "a.html"], c1Doc)]

/-- Contents of `docs/latest/a.html` after one stamping pass over `c1Fs`. -/
def c1Out1 : List Char :=
  ("<head>\n<link rel=\"canonical\" href=\"/latest/a.html\"> </head> <body>\n</body>\n").data

def c1Fs1 : FS := [(["docs", "latest", "a.html"], c1Out1)]

/-- Contents of the same file after a second stamping pass: the merged line
(which now also holds `</head>` and `<body>`) matches the whole-line canonical
regex and is deleted, and the tag is spliced into `</body>`. -/
def c1Out2 : List Char :=
  ("<head>\n</body>\n<link rel=\"canonical\" href=\"/latest/a.html\"> ").data

def c1Fs2 : FS := [(["docs", "latest", "a.html"], c1Out2)]

/-- A document with two canonical tags, the first of which also carries the
head closing tag: the deletion loop removes both lines, the recorded head line
then lies past the end of the list and line 198 of the script raises
`IndexError`; nothing is written, both tags remain. -/
def c2Doc : List (List Char) :=
  [("<link rel=\"canonical\" href=\"a\"></head>\n").data,
   ("<link rel=\"canonical\" href=\"b\">\n").data]

def c2Fs : FS := [(["docs", "latest", "b.html"], c2Doc.flatten)]

/-- A redirect page with no head closing tag: the scan returns on the redirect
marker before ever reporting the missing head. -/
def c7Doc : List (List Char) :=
  [("<meta http-equiv=\"refresh\" content=\"0; url=x\">\n").data,
   ("<p>hi</p>\n").data]

/-- A parse result for a previous version page that carries no meta refresh
tag (what BeautifulSoup returns on a page that is not a redirect). -/
def plainParse : List Char → PrevParse := fun _ => ⟨none, none⟩

def c5Fs : FS :=
  [(["docs", "27", "page.html"], ("<html><head></head><body>x</body></html>\n").data)]

def c5Body : List Char := renderRedirect (("/27/page.html").data) ("28") none

/-- A previous version tree holding a file whose name ends in `xhtml`: not an
`.html` file, yet visited by the redirect walker. -/
def c9Fs : FS :=
  [(["docs", "27", "x.xhtml"], ("<html><head></head><body>x</body></html>\n").data)]

def c9Body : List Char := renderRedirect (("/27/x.xhtml").data) ("28") none

/-! ## Basic filesystem lemmas -/

theorem lookupFS_writeFS (fs : FS) (p : List String) (c : List Char)
    (q : List String) :
    lookupFS (writeFS fs p c) q = if q = p then some c else lookupFS fs q := by
  induction fs with
  | nil =>
    by_cases h : q = p
    · subst h; simp [writeFS, lookupFS]
    · have h2 : ¬p = q := fun hh => h hh.symm
      simp [writeFS, lookupFS, h, h2]
  | cons e rest ih =>
    obtain ⟨a, d⟩ := e
    by_cases h1 : a = p
    · subst h1
      by_cases h2 : q = a
      · subst h2; simp [writeFS, lookupFS]
      · have h2b : ¬a = q := fun hh => h2 hh.symm
        simp [writeFS, lookupFS, h2, h2b]
    · by_cases h2 : a = q
      · have h2b : ¬q = p := fun hh => h1 (h2 ▸ hh)
        simp [writeFS, lookupFS, h1, h2, h2b]
      · by_cases h3 : q = p
        · subst h3
          simp [writeFS, lookupFS, h1, h2, ih]
        · simp [writeFS, lookupFS, h1, h2, h3, ih]

theorem writeFS_self {fs : FS} {p : List String} {c : List Char}
    (h : lookupFS fs p = some c) : writeFS fs p c = fs := by
  induction fs with
  | nil => simp [lookupFS] at h
  | cons e rest ih =>
    obtain ⟨a, d⟩ := e
    by_cases h1 : a = p
    · subst h1
      simp [lookupFS] at h
      simp [writeFS, h]
    · simp [lookupFS, h1] at h
      simp [writeFS, h1, ih h]

theorem writeFS_keys {fs : FS} {p : List String} {c : List Char}
    (h : (lookupFS fs p).isSome) :
    (writeFS fs p c).map Prod.fst = fs.map Prod.fst := by
  induction fs with
  | nil => simp [lookupFS] at h
  | cons e rest ih =>
    obtain ⟨a, d⟩ := e
    by_cases h1 : a = p
    · subst h1
      simp [writeFS]
    · simp [lookupFS, h1] at h
      simp [writeFS, h1, ih h]

/-! ## The early return on redirect pages -/

theorem scanLines_refresh {L : List (List Char)}
    (h : ∃ l ∈ L, searchMetaRefresh l = true) :
    ∀ i ex hd, scanLines L i ex hd = none := by
  induction L with
  | nil => simp at h
  | cons l rest ih =>
    intro i ex hd
    by_cases hr : searchMetaRefresh l = true
    · simp [scanLines, hr]
    · obtain ⟨m, hm, hms⟩ := h
      rcases List.mem_cons.mp hm with h1 | h1
      · subst h1; exact absurd hms hr
      · rw [scanLines]
        simp only [hr, if_false, Bool.false_eq_true]
        rw [ih ⟨m, h1, hms⟩]
        rfl

/-! ## Claim theorems: redirect synthesis -/

/-- C3: redirect synthesis is write-once: whenever a file already exists at
the computed destination path, `redirect_removed_file` returns the filesystem
unchanged (and raises nothing: the whole body is guarded by the existence
check of line 243). -/
theorem redirect_removed_file_write_once
    (parse : List Char → PrevParse) (base previousDocsFile : List String)
    (currentDirname previousDirname currentVersion : String) (useAbs : Bool)
    (productName : Option String) (fs : FS) (c : List Char)
    (hex : lookupFS fs (generate_canonical_url base previousDocsFile
      (base ++ [previousDirname]) currentDirname).1 = some c) :
    redirect_removed_file parse base previousDocsFile currentDirname
      previousDirname currentVersion useAbs productName fs = some fs := by
  unfold redirect_removed_file
  simp [hex]

theorem redirect_write_once_witness :
    redirect_removed_file plainParse (["docs"]) (["docs", "27", "p.html"])
      ("latest") ("27") ("28") true none
      [(["docs", "latest", "p.html"], [])] =
      some [(["docs", "latest", "p.html"], [])] :=
  redirect_removed_file_write_once plainParse (["docs"]) (["docs", "27", "p.html"])
    ("latest") ("27") ("28") true none _ [] (by decide)

/-- C4: inherited static redirect: when the destination is absent and the
previous version document parses to a meta refresh whose `content` contains
the canonical link href, the rendered redirect targets that href, not the
freshly computed cross version URL. -/
theorem redirect_removed_file_inherits_static_redirect
    (parse : List Char → PrevParse) (base previousDocsFile : List String)
    (currentDirname previousDirname currentVersion : String) (useAbs : Bool)
    (productName : Option String) (fs : FS) (contents content href : List Char)
    (hne : lookupFS fs (generate_canonical_url base previousDocsFile
      (base ++ [previousDirname]) currentDirname).1 = none)
    (hread : lookupFS fs previousDocsFile = some contents)
    (hparse : parse contents = ⟨some (some content), some (some href)⟩)
    (hin : hasSubL href content = true) :
    redirect_removed_file parse base previousDocsFile currentDirname
      previousDirname currentVersion useAbs productName fs =
      some (writeFS fs (generate_canonical_url base previousDocsFile
        (base ++ [previousDirname]) currentDirname).1
        (renderRedirect href currentVersion productName)) := by
  unfold redirect_removed_file
  simp [hne, hread, hparse, hin, inheritUrl]

theorem redirect_inherit_witness :
    redirect_removed_file
      (fun _ => ⟨some (some (("3; url=moved.html").data)),
        some (some (("moved.html").data))⟩)
      (["docs"]) (["docs", "27", "old.html"]) ("latest") ("27") ("28") true none
      [(["docs", "27", "old.html"], ("x").data)] =
      some (writeFS [(["docs", "27", "old.html"], ("x").data)]
        (["docs", "latest", "old.html"])
        (renderRedirect (("moved.html").data) ("28") none)) :=
  redirect_removed_file_inherits_static_redirect _ _ _ _ _ _ _ _ _
    (("x").data) (("3; url=moved.html").data) (("moved.html").data)
    (by decide) (by decide) rfl (by decide)

/-- C5: the two-segment rename scenario: with base `docs/`, previous file
`docs/27/page.html`, current version `28`, absolute addressing and no product
name, the synthesizer creates `docs/latest/page.html` whose contents carry a
meta refresh to `/27/page.html` and body text naming `28`. -/
theorem redirect_two_segment_rename_scenario :
    redirect_removed_file plainParse (["docs"]) (["docs", "27", "page.html"])
      ("latest") ("27") ("28") true none c5Fs =
      some (writeFS c5Fs (["docs", "latest", "page.html"]) c5Body) ∧
    lookupFS (writeFS c5Fs (["docs", "latest", "page.html"]) c5Body)
      (["docs", "latest", "page.html"]) = some c5Body ∧
    hasSubL (("<meta http-equiv=\"refresh\" content=\"3; url=/27/page.html\">").data)
      c5Body = true ∧
    hasSubL (("this version (28). You will be redirected").data) c5Body = true := by
  refine ⟨by decide, by decide, by decide, by decide⟩

/-- C10: the frame of `redirect_removed_file`: the previous version document
it reads keeps its contents, every path other than the computed destination
keeps its contents, and when the destination already exists nothing at all
changes (directory creation is implicit in the path model). -/
theorem redirect_removed_file_frame
    (parse : List Char → PrevParse) (base previousDocsFile : List String)
    (currentDirname previousDirname currentVersion : String) (useAbs : Bool)
    (productName : Option String) (fs fs2 : FS)
    (h : redirect_removed_file parse base previousDocsFile currentDirname
      previousDirname currentVersion useAbs productName fs = some fs2) :
    lookupFS fs2 previousDocsFile = lookupFS fs previousDocsFile ∧
    (∀ q, q ≠ (generate_canonical_url base previousDocsFile
        (base ++ [previousDirname]) currentDirname).1 →
      lookupFS fs2 q = lookupFS fs q) ∧
    ((lookupFS fs (generate_canonical_url base previousDocsFile
        (base ++ [previousDirname]) currentDirname).1).isSome → fs2 = fs) := by
  unfold redirect_removed_file at h
  by_cases hex : (lookupFS fs (generate_canonical_url base previousDocsFile
      (base ++ [previousDirname]) currentDirname).1).isSome = true
  · rw [if_pos hex] at h
    injection h with h
    subst h
    exact ⟨rfl, fun _ _ => rfl, fun _ => rfl⟩
  · rw [if_neg hex] at h
    cases hread : lookupFS fs previousDocsFile with
    | none =>
      rw [hread] at h
      exact absurd h (by simp)
    | some contents =>
      rw [hread] at h
      have h2 : (match inheritUrl (parse contents)
          (if useAbs then '/' :: joinSegs (previousDocsFile.drop base.length)
           else (generate_canonical_url base previousDocsFile
             (base ++ [previousDirname]) currentDirname).2) with
        | none => none
        | some url2 => some (writeFS fs (generate_canonical_url base
            previousDocsFile (base ++ [previousDirname]) currentDirname).1
            (renderRedirect url2 currentVersion productName))) = some fs2 := h
      cases hiu : inheritUrl (parse contents)
          (if useAbs then '/' :: joinSegs (previousDocsFile.drop base.length)
           else (generate_canonical_url base previousDocsFile
             (base ++ [previousDirname]) currentDirname).2) with
      | none =>
        rw [hiu] at h2
        exact absurd h2 (by simp)
      | some url2 =>
      rw [hiu] at h2
      obtain ⟨body, rfl⟩ : ∃ body, fs2 = writeFS fs (generate_canonical_url base
          previousDocsFile (base ++ [previousDirname]) currentDirname).1 body :=
        ⟨_, (Option.some.inj h2).symm⟩
      refine ⟨?_, ?_, ?_⟩
      · rw [lookupFS_writeFS]
        by_cases hpq : previousDocsFile = (generate_canonical_url base
            previousDocsFile (base ++ [previousDirname]) currentDirname).1
        · exfalso
          rw [hpq] at hread
          rw [hread] at hex
          simp at hex
        · rw [if_neg hpq]
          exact hread
      · intro q hq
        rw [lookupFS_writeFS, if_neg hq]
      · intro hs
        exact absurd hs hex

theorem redirect_frame_witness :
    lookupFS (writeFS c5Fs (["docs", "latest", "page.html"]) c5Body)
        (["docs", "27", "page.html"]) =
      lookupFS c5Fs (["docs", "27", "page.html"]) :=
  (redirect_removed_file_frame plainParse (["docs"]) (["docs", "27", "page.html"])
    ("latest") ("27") ("28") true none c5Fs _ (by decide)).1

/-! ## Claim theorems: redirect page exclusion -/

/-- C8: a document in which some line carries the meta refresh marker (the
form the line scanner of line 171 recognises a redirect page by) is never
stamped: the transformation ends in the early return and the file is left
unmodified. -/
theorem create_canonical_tag_skips_redirect_pages
    (base cur p : List String) (version : String) (useAbs : Bool) (fs : FS)
    (c : List Char) (hc : lookupFS fs p = some c)
    (hr : ∃ l ∈ pySplitLines c, searchMetaRefresh l = true) :
    stampDoc (theTag base cur p version useAbs) (pySplitLines c) =
      CreateOutcome.refreshSkip ∧
    create_canonical_tag base cur p version useAbs fs = some fs := by
  have hs : stampDoc (theTag base cur p version useAbs) (pySplitLines c) =
      CreateOutcome.refreshSkip := by
    unfold stampDoc
    rw [scanLines_refresh hr]
  refine ⟨hs, ?_⟩
  have hs2 := hs
  unfold theTag at hs2
  unfold create_canonical_tag
  rw [hc]
  simp only []
  rw [hs2]

theorem redirect_page_exclusion_witness :
    stampDoc (theTag (["docs"]) (["docs", "latest"]) (["docs", "latest", "r.html"])
        ("latest") true) (pySplitLines c7Doc.flatten) = CreateOutcome.refreshSkip ∧
    create_canonical_tag (["docs"]) (["docs", "latest"])
      (["docs", "latest", "r.html"]) ("latest") true
      [(["docs", "latest", "r.html"], c7Doc.flatten)] =
      some [(["docs", "latest", "r.html"], c7Doc.flatten)] :=
  create_canonical_tag_skips_redirect_pages (["docs"]) (["docs", "latest"])
    (["docs", "latest", "r.html"]) ("latest") true _ c7Doc.flatten (by decide)
    ⟨(("<meta http-equiv=\"refresh\" content=\"0; url=x\">\n").data), by decide, by decide⟩

/-! ## Counterexamples -/

/-- C1 counterexample: on the tree `c1Fs` (one document whose head closing tag
shares a line with a canonical tag) the canonical walker succeeds twice, but
the second pass produces different bytes than the first: stamping is not
idempotent for every tree. -/
theorem canonical_stamping_twice_differs :
    canonical_tag_walker (["docs"]) (["docs", "latest"]) ("latest") true c1Fs =
      some c1Fs1 ∧
    canonical_tag_walker (["docs"]) (["docs", "latest"]) ("latest") true c1Fs1 =
      some c1Fs2 ∧
    c1Fs2 ≠ c1Fs1 := by
  refine ⟨by decide, by decide, by decide⟩

/-- C2 counterexample: `c2Doc` contains a head closing marker, is not a
redirect page and holds two pre-existing canonical tags, yet
`create_canonical_tag` dies with an `IndexError` (modelled as `none`) before
writing, so both canonical tags remain: not exactly one. -/
theorem stamp_leaves_two_canonical_tags :
    stampDoc (theTag (["docs"]) (["docs", "latest"]) (["docs", "latest", "b.html"])
        ("latest") true) c2Doc = CreateOutcome.indexError ∧
    canonCountDoc c2Doc = 2 ∧
    (∀ l ∈ c2Doc, searchMetaRefresh l = false) ∧
    (∃ l ∈ c2Doc, firstHeadIdx l ≠ none) ∧
    create_canonical_tag (["docs"]) (["docs", "latest"])
      (["docs", "latest", "b.html"]) ("latest") true c2Fs = none := by
  refine ⟨by decide, by decide, by decide, ⟨_, List.mem_cons_self _ _, by decide⟩, by decide⟩

/-- C7 counterexample: a document with no `</head>` marker on any line that
also carries a meta refresh marker is left untouched, but the run never
reaches the missing-head diagnostic (lines 186-190): the outcome is the silent
redirect skip, so the condition is not reported. -/
theorem missing_head_with_refresh_not_reported :
    (∀ l ∈ c7Doc, firstHeadIdx l = none) ∧
    stampDoc (theTag (["docs"]) (["docs", "latest"]) (["docs", "latest", "r.html"])
        ("latest") true) c7Doc = CreateOutcome.refreshSkip ∧
    CreateOutcome.refreshSkip ≠ CreateOutcome.missingHead := by
  refine ⟨by decide, by decide, by decide⟩

/-- C9 counterexample: the redirect walker filters on `endswith("html")`
(line 319, no dot), so the tree `c9Fs`, whose only file is `docs/27/x.xhtml`,
is visited: a redirect is synthesised from a file that does not have the
`.html` extension. -/
theorem redirect_walker_visits_non_html_file :
    redirect_removed_walker plainParse (["docs"]) ("latest") ("27") ("28") true
      none c9Fs =
      some (writeFS c9Fs (["docs", "latest", "x.xhtml"]) c9Body) ∧
    lookupFS (writeFS c9Fs (["docs", "latest", "x.xhtml"]) c9Body)
      (["docs", "latest", "x.xhtml"]) = some c9Body ∧
    endsWithL ((".html").data) (("x.xhtml").data) = false := by
  refine ⟨by decide, by decide, by decide⟩

/-! ## The relative URL round trip (claim C6) -/

theorem relSubSM_skip {A : List Char} (hA : ∀ c ∈ A, c ≠ '/') (r : List Char) :
    relSubSM true (A ++ r) = relSubSM true r := by
  induction A with
  | nil => rfl
  | cons c A2 ih =>
    have hc : c ≠ '/' := hA c (List.mem_cons_self _ _)
    rw [List.cons_append, relSubSM, if_neg hc, if_pos rfl]
    exact ih (fun x hx => hA x (List.mem_cons_of_mem _ hx))

theorem relSubSM_true_false {r : List Char} (hr : r = [] ∨ ∃ r2, r = '/' :: r2) :
    relSubSM true r = relSubSM false r := by
  rcases hr with rfl | ⟨r2, rfl⟩
  · rfl
  · rw [relSubSM, relSubSM, if_pos rfl, if_pos rfl]

theorem relSub_slash (X : List Char) : relSub ('/' :: X) = '/' :: relSub X := by
  show relSubSM false ('/' :: X) = _
  rw [relSubSM, if_pos rfl]
  rfl

theorem relSub_seg {A r : List Char} (hne : A ≠ []) (hA : ∀ c ∈ A, c ≠ '/')
    (hr : r = [] ∨ ∃ r2, r = '/' :: r2) :
    relSub (A ++ r) = '.' :: '.' :: relSub r := by
  cases A with
  | nil => exact absurd rfl hne
  | cons c A2 =>
    have hc : c ≠ '/' := hA c (List.mem_cons_self _ _)
    show relSubSM false (c :: (A2 ++ r)) = _
    rw [relSubSM, if_neg hc, if_neg (by simp)]
    rw [relSubSM_skip (fun x hx => hA x (List.mem_cons_of_mem _ hx)) r]
    rw [relSubSM_true_false hr]
    rfl

theorem joinSegs_append {A B : List String} (hA : A ≠ []) (hB : B ≠ []) :
    joinSegs (A ++ B) = joinSegs A ++ '/' :: joinSegs B := by
  induction A with
  | nil => exact absurd rfl hA
  | cons a A2 ih =>
    cases A2 with
    | nil =>
      cases B with
      | nil => exact absurd rfl hB
      | cons b B2 => rfl
    | cons a2 A3 =>
      show a.data ++ '/' :: joinSegs ((a2 :: A3) ++ B) =
        (a.data ++ '/' :: joinSegs (a2 :: A3)) ++ '/' :: joinSegs B
      rw [ih (List.cons_ne_nil _ _)]
      simp

theorem relSub_joinSegs {segs : List String} (hne : segs ≠ [])
    (hclean : ∀ s ∈ segs, s.data ≠ [] ∧ ∀ ch ∈ s.data, ch ≠ '/') :
    relSub (joinSegs segs) = joinSegs (segs.map (fun _ => (".."))) := by
  induction segs with
  | nil => exact absurd rfl hne
  | cons s tail ih =>
    obtain ⟨hs1, hs2⟩ := hclean s (List.mem_cons_self _ _)
    cases tail with
    | nil =>
      show relSub (joinSegs [s]) = joinSegs [".."]
      rw [show joinSegs [s] = s.data ++ [] from by simp [joinSegs]]
      rw [relSub_seg hs1 hs2 (Or.inl rfl)]
      decide
    | cons t tail2 =>
      show relSub (s.data ++ '/' :: joinSegs (t :: tail2)) = _
      rw [relSub_seg hs1 hs2 (Or.inr ⟨_, rfl⟩)]
      rw [relSub_slash]
      rw [ih (List.cons_ne_nil _ _) (fun x hx => hclean x (List.mem_cons_of_mem _ hx))]
      rfl

theorem splitSlashAux_mid {A : List Char} {t : List Char} (hA : ∀ c ∈ A, c ≠ '/') :
    ∀ acc, splitSlashAux (A ++ '/' :: t) acc =
      (⟨(acc.reverse ++ A)⟩ : String) :: splitSlashAux t [] := by
  induction A with
  | nil =>
    intro acc
    rw [List.nil_append, splitSlashAux, if_pos rfl]
    simp
  | cons c A2 ih =>
    intro acc
    have hc : c ≠ '/' := hA c (List.mem_cons_self _ _)
    rw [List.cons_append, splitSlashAux, if_neg hc]
    rw [ih (fun x hx => hA x (List.mem_cons_of_mem _ hx)) (c :: acc)]
    simp

theorem splitSlashAux_last {A : List Char} (hA : ∀ c ∈ A, c ≠ '/') :
    ∀ acc, splitSlashAux (A ++ []) acc = [(⟨(acc.reverse ++ A)⟩ : String)] := by
  induction A with
  | nil =>
    intro acc
    rw [List.nil_append, splitSlashAux]
    simp
  | cons c A2 ih =>
    intro acc
    have hc : c ≠ '/' := hA c (List.mem_cons_self _ _)
    rw [List.cons_append, splitSlashAux, if_neg hc]
    rw [ih (fun x hx => hA x (List.mem_cons_of_mem _ hx)) (c :: acc)]
    simp

theorem splitSlash_joinSegs {segs : List String} (hne : segs ≠ [])
    (hclean : ∀ s ∈ segs, ∀ ch ∈ s.data, ch ≠ '/') :
    splitSlash (joinSegs segs) = segs := by
  induction segs with
  | nil => exact absurd rfl hne
  | cons s tail ih =>
    cases tail with
    | nil =>
      show splitSlashAux (joinSegs [s]) [] = [s]
      rw [show joinSegs [s] = s.data ++ [] from by simp [joinSegs]]
      rw [splitSlashAux_last (hclean s (List.mem_cons_self _ _)) []]
      simp
    | cons t tail2 =>
      show splitSlashAux (s.data ++ '/' :: joinSegs (t :: tail2)) [] = _
      rw [splitSlashAux_mid (hclean s (List.mem_cons_self _ _)) []]
      rw [show splitSlashAux (joinSegs (t :: tail2)) [] =
        splitSlash (joinSegs (t :: tail2)) from rfl]
      rw [ih (List.cons_ne_nil _ _) (fun x hx => hclean x (List.mem_cons_of_mem _ hx))]
      simp

theorem resolveDots_pop {segs : List String} :
    ∀ dir : List String, dir.length ≤ segs.length →
      resolveDots dir (segs.map (fun _ => (".."))) = [] := by
  induction segs with
  | nil =>
    intro dir h
    rw [List.length_nil, Nat.le_zero, List.length_eq_zero] at h
    subst h
    rfl
  | cons s tail ih =>
    intro dir h
    rw [List.map_cons]
    show List.foldl _ dir ((("..") : String) :: tail.map (fun _ => (".."))) = []
    rw [List.foldl_cons, if_pos rfl]
    refine ih dir.dropLast ?_
    rw [List.length_dropLast]
    rw [List.length_cons] at h
    omega

theorem resolveDots_descend {segs : List String} (h : ∀ s ∈ segs, s ≠ ("..")) :
    ∀ dir : List String, resolveDots dir segs = dir ++ segs := by
  induction segs with
  | nil => intro dir; simp [resolveDots]
  | cons s tail ih =>
    intro dir
    show List.foldl _ dir (s :: tail) = _
    rw [List.foldl_cons, if_neg (h s (List.mem_cons_self _ _))]
    rw [show List.foldl _ (dir ++ [s]) tail = resolveDots (dir ++ [s]) tail from rfl]
    rw [ih (fun x hx => h x (List.mem_cons_of_mem _ hx)) (dir ++ [s])]
    simp

/-- C6: the relative URL round trip: for a canonical file below the versioned
directory and the sibling file `generate_canonical_url` computes, resolving
the produced relative URL from the sibling document's directory with standard
dot segment normalization (`..` pops a segment and is clamped at the
documentation root) reaches exactly the canonical file computed directly. -/
theorem generate_canonical_url_roundtrip
    (base : List String) (d cur : String) (rest : List String) (_hrest : rest ≠ [])
    (hclean : ∀ seg ∈ cur :: d :: rest,
      seg.data ≠ [] ∧ (∀ ch ∈ seg.data, ch ≠ '/') ∧ seg ≠ ("..")) :
    base ++ resolveDots
        (((generate_canonical_url base (base ++ [d] ++ rest) (base ++ [d]) cur).1.drop
          base.length).dropLast)
        (splitSlash
          (generate_canonical_url base (base ++ [d] ++ rest) (base ++ [d]) cur).2) =
      base ++ [d] ++ rest := by
  have hfile : (generate_canonical_url base (base ++ [d] ++ rest) (base ++ [d]) cur).1 =
      base ++ [cur] ++ rest := by
    show (base ++ [cur]) ++ ((base ++ [d]) ++ rest).drop (base ++ [d]).length = _
    rw [List.drop_left]
  have hrel1 : ((base ++ [d]) ++ rest).drop base.length = [d] ++ rest := by
    rw [List.append_assoc, List.drop_left]
  have hurl : (generate_canonical_url base (base ++ [d] ++ rest) (base ++ [d]) cur).2 =
      joinSegs ((cur :: rest).map (fun _ => ("..")) ++ (d :: rest)) := by
    show relSub (joinSegs (((base ++ [cur]) ++ ((base ++ [d]) ++ rest).drop
        (base ++ [d]).length).drop base.length)) ++
      '/' :: joinSegs (((base ++ [d]) ++ rest).drop base.length) = _
    rw [List.drop_left]
    rw [show (base ++ [cur]) ++ rest = base ++ ([cur] ++ rest) from by simp,
      List.drop_left]
    rw [hrel1]
    simp only [List.singleton_append]
    have hcr : ∀ s ∈ cur :: rest, s.data ≠ [] ∧ ∀ ch ∈ s.data, ch ≠ '/' := by
      intro s hs
      rcases List.mem_cons.mp hs with rfl | h
      · exact ⟨(hclean s (List.mem_cons_self _ _)).1,
          (hclean s (List.mem_cons_self _ _)).2.1⟩
      · have h2 := hclean s (List.mem_cons_of_mem _ (List.mem_cons_of_mem _ h))
        exact ⟨h2.1, h2.2.1⟩
    rw [relSub_joinSegs (List.cons_ne_nil _ _) hcr]
    rw [← joinSegs_append (by simp) (List.cons_ne_nil _ _)]
  rw [hfile, hurl]
  rw [show (base ++ [cur]) ++ rest = base ++ ([cur] ++ rest) from by simp,
    List.drop_left]
  simp only [List.singleton_append]
  have hclean2 : ∀ s ∈ (cur :: rest).map (fun _ => ("..")) ++ (d :: rest),
      ∀ ch ∈ s.data, ch ≠ '/' := by
    intro s hs
    rcases List.mem_append.mp hs with h | h
    · obtain ⟨x, -, rfl⟩ := List.mem_map.mp h
      decide
    · rcases List.mem_cons.mp h with rfl | h2
      · exact (hclean s (List.mem_cons_of_mem _ (List.mem_cons_self _ _))).2.1
      · exact (hclean s (List.mem_cons_of_mem _ (List.mem_cons_of_mem _ h2))).2.1
  rw [splitSlash_joinSegs (by simp) hclean2]
  rw [show resolveDots ((cur :: rest).dropLast)
      ((cur :: rest).map (fun _ => ("..")) ++ (d :: rest)) =
    resolveDots (resolveDots ((cur :: rest).dropLast)
      ((cur :: rest).map (fun _ => ("..")))) (d :: rest) from List.foldl_append ..]
  rw [resolveDots_pop ((cur :: rest).dropLast) (by simp)]
  rw [resolveDots_descend ?hdots []]
  · simp
  case hdots =>
    intro s hs
    rcases List.mem_cons.mp hs with rfl | h2
    · exact (hclean s (List.mem_cons_of_mem _ (List.mem_cons_self _ _))).2.2
    · exact (hclean s (List.mem_cons_of_mem _ (List.mem_cons_of_mem _ h2))).2.2

theorem roundtrip_witness :
    (["docs"] : List String) ++ resolveDots
        (((generate_canonical_url (["docs"])
          (["docs"] ++ [("27")] ++ [("guide"), ("page.html")])
          (["docs"] ++ [("27")]) ("latest")).1.drop (["docs"] : List String).length).dropLast)
        (splitSlash
          (generate_canonical_url (["docs"])
          (["docs"] ++ [("27")] ++ [("guide"), ("page.html")])
          (["docs"] ++ [("27")]) ("latest")).2) =
      ["docs"] ++ [("27")] ++ [("guide"), ("page.html")] :=
  generate_canonical_url_roundtrip (["docs"]) ("27") ("latest")
    ([("guide"), ("page.html")]) (by decide) (by decide)

/-! ## Step lemmas for the line scan -/

theorem inert_facts {l : List Char} (h : inertLineB l = true) :
    searchMetaRefresh l = false ∧ wholeLineCanonMatch l = false ∧
    (canonScan l).2.2 = 0 ∧ firstHeadIdx l = none ∧
    wholeLineHeadMatch l = false ∧ endsNlOnly l = true := by
  unfold inertLineB at h
  simp only [Bool.and_eq_true, Bool.not_eq_true', beq_iff_eq] at h
  obtain ⟨⟨⟨⟨⟨h1, h2⟩, h3⟩, h4⟩, h5⟩, h6⟩ := h
  exact ⟨h1, h2, h3, h4, h5, h6⟩

theorem tag_facts {l : List Char} (h : tagLineB l = true) :
    searchMetaRefresh l = false ∧ wholeLineCanonMatch l = true ∧
    firstHeadIdx l = none ∧ wholeLineHeadMatch l = false ∧ endsNlOnly l = true := by
  unfold tagLineB at h
  simp only [Bool.and_eq_true, Bool.not_eq_true', beq_iff_eq] at h
  obtain ⟨⟨⟨⟨h1, h2⟩, h3⟩, h4⟩, h5⟩ := h
  exact ⟨h1, h2, h3, h4, h5⟩

theorem head_facts {l : List Char} (h : headLineB l = true) :
    searchMetaRefresh l = false ∧ wholeLineCanonMatch l = false ∧
    (canonScan l).2.2 = 0 ∧ wholeLineHeadMatch l = true ∧ endsNlOnly l = true := by
  unfold headLineB at h
  simp only [Bool.and_eq_true, Bool.not_eq_true', beq_iff_eq] at h
  obtain ⟨⟨⟨⟨h1, h2⟩, h3⟩, h4⟩, h5⟩ := h
  exact ⟨h1, h2, h3, h4, h5⟩

theorem scanLines_cons_inert {l : List Char} (h : inertLineB l = true)
    (rest : List (List Char)) (i : Nat) (ex : List Nat)
    (hd : Option (Nat × Option Int)) :
    scanLines (l :: rest) i ex hd =
      (scanLines rest (i + 1) ex hd).map (fun r => (l :: r.1, r.2)) := by
  obtain ⟨h1, h2, h3, h4, h5, -⟩ := inert_facts h
  cases hd with
  | none => rw [scanLines]; simp [h1, h2, h3, h4, h5]
  | some p => rw [scanLines]; simp [h1, h2, h3, h4, h5]

theorem scanLines_cons_tag {l : List Char} (h : tagLineB l = true)
    (rest : List (List Char)) (i : Nat) (ex : List Nat)
    (hd : Option (Nat × Option Int)) :
    scanLines (l :: rest) i ex hd =
      (scanLines rest (i + 1) (ex ++ [i]) hd).map (fun r => (l :: r.1, r.2)) := by
  obtain ⟨h1, h2, h4, h5, -⟩ := tag_facts h
  cases hd with
  | none => rw [scanLines]; simp [h1, h2, h4, h5]
  | some p => rw [scanLines]; simp [h1, h2, h4, h5]

theorem scanLines_cons_head_none {l : List Char} (h : headLineB l = true)
    (rest : List (List Char)) (i : Nat) (ex : List Nat) :
    scanLines (l :: rest) i ex none =
      (scanLines rest (i + 1) ex (some (i, none))).map (fun r => (l :: r.1, r.2)) := by
  obtain ⟨h1, h2, h3, h5, -⟩ := head_facts h
  rw [scanLines]
  simp [h1, h2, h3, h5]

theorem scanLines_block {A : List (List Char)}
    (hA : ∀ l ∈ A, inertLineB l = true ∨ tagLineB l = true) :
    ∀ (R : List (List Char)) (i : Nat) (ex : List Nat),
      scanLines (A ++ R) i ex none =
        (scanLines R (i + A.length) (ex ++ tagIdxsFrom A i) none).map
          (fun r => (A ++ r.1, r.2)) := by
  induction A with
  | nil =>
    intro R i ex
    simp only [List.nil_append, List.length_nil, Nat.add_zero, tagIdxsFrom,
      List.append_nil]
    cases hS : scanLines R i ex none <;> simp
  | cons l A2 ih =>
    intro R i ex
    have hmem : ∀ x ∈ A2, inertLineB x = true ∨ tagLineB x = true :=
      fun x hx => hA x (List.mem_cons_of_mem _ hx)
    have harith : i + 1 + A2.length = i + (A2.length + 1) := by omega
    rcases hA l (List.mem_cons_self _ _) with hi | ht
    · rw [List.cons_append, scanLines_cons_inert hi, ih hmem]
      have hidx : tagIdxsFrom (l :: A2) i = tagIdxsFrom A2 (i + 1) := by
        rw [tagIdxsFrom]
        rw [if_neg (by simp [(inert_facts hi).2.1])]
        rfl
      rw [hidx, List.length_cons, harith]
      cases hS : scanLines R (i + (A2.length + 1)) (ex ++ tagIdxsFrom A2 (i + 1)) none <;>
        simp
    · rw [List.cons_append, scanLines_cons_tag ht, ih hmem]
      have hidx : tagIdxsFrom (l :: A2) i = [i] ++ tagIdxsFrom A2 (i + 1) := by
        rw [tagIdxsFrom]
        rw [if_pos (tag_facts ht).2.1]
      rw [hidx, List.length_cons, harith, ← List.append_assoc]
      cases hS : scanLines R (i + (A2.length + 1))
        ((ex ++ [i]) ++ tagIdxsFrom A2 (i + 1)) none <;> simp

theorem scanLines_tail {B : List (List Char)}
    (hB : ∀ l ∈ B, inertLineB l = true ∨ tagLineB l = true) :
    ∀ (i : Nat) (ex : List Nat) (p : Nat × Option Int),
      scanLines B i ex (some p) = some (B, ex ++ tagIdxsFrom B i, some p) := by
  induction B with
  | nil =>
    intro i ex p
    simp [scanLines, tagIdxsFrom]
  | cons l B2 ih =>
    intro i ex p
    have hmem : ∀ x ∈ B2, inertLineB x = true ∨ tagLineB x = true :=
      fun x hx => hB x (List.mem_cons_of_mem _ hx)
    rcases hB l (List.mem_cons_self _ _) with hi | ht
    · rw [scanLines_cons_inert hi, ih hmem]
      have hidx : tagIdxsFrom (l :: B2) i = tagIdxsFrom B2 (i + 1) := by
        rw [tagIdxsFrom, if_neg (by simp [(inert_facts hi).2.1])]
        rfl
      rw [hidx]
      rfl
    · rw [scanLines_cons_tag ht, ih hmem]
      have hidx : tagIdxsFrom (l :: B2) i = [i] ++ tagIdxsFrom B2 (i + 1) := by
        rw [tagIdxsFrom, if_pos (tag_facts ht).2.1]
      rw [hidx, ← List.append_assoc]
      rfl

/-! ## The deletion loop -/

theorem deleteIdxs_append (X Y : List Nat) :
    ∀ (ls : List (List Char)) (h : Nat),
      deleteIdxs (X ++ Y) ls h =
        deleteIdxs Y (deleteIdxs X ls h).1 (deleteIdxs X ls h).2 := by
  induction X with
  | nil => intro ls h; rfl
  | cons i X2 ih =>
    intro ls h
    rw [List.cons_append, deleteIdxs, ih, deleteIdxs]

theorem eraseIdx_concat (x : List Char) (D : List (List Char)) :
    ∀ C : List (List Char), (C ++ x :: D).eraseIdx C.length = C ++ D := by
  intro C
  induction C with
  | nil => rfl
  | cons c C2 ih =>
    rw [List.cons_append, List.length_cons, List.eraseIdx_cons_succ, ih]
    rfl

theorem tagIdxsFrom_append (X Y : List (List Char)) :
    ∀ i, tagIdxsFrom (X ++ Y) i = tagIdxsFrom X i ++ tagIdxsFrom Y (i + X.length) := by
  induction X with
  | nil => intro i; simp [tagIdxsFrom]
  | cons x X2 ih =>
    intro i
    rw [List.cons_append, tagIdxsFrom, tagIdxsFrom, ih (i + 1)]
    simp only [List.length_cons, List.append_assoc]
    have : i + 1 + X2.length = i + (X2.length + 1) := by omega
    rw [this]

theorem deleteIdxs_high (B : List (List Char)) :
    ∀ (C D : List (List Char)) (hpos : Nat), hpos < C.length →
      deleteIdxs (tagIdxsFrom B C.length).reverse (C ++ B ++ D) hpos =
        (C ++ B.filter (fun l => !wholeLineCanonMatch l) ++ D, hpos) := by
  induction B using List.reverseRecOn with
  | nil =>
    intro C D hpos _
    simp [tagIdxsFrom, deleteIdxs]
  | append_singleton B0 b ih =>
    intro C D hpos hlt
    rw [tagIdxsFrom_append B0 [b]]
    by_cases hw : wholeLineCanonMatch b = true
    · rw [show tagIdxsFrom [b] (C.length + B0.length) = [C.length + B0.length] from by
        simp [tagIdxsFrom, hw]]
      rw [List.reverse_append]
      simp only [List.reverse_singleton, List.singleton_append]
      rw [deleteIdxs]
      rw [show C ++ (B0 ++ [b]) ++ D = (C ++ B0) ++ b :: D from by simp]
      rw [show C.length + B0.length = (C ++ B0).length from by simp]
      rw [eraseIdx_concat b D (C ++ B0)]
      rw [if_neg (by simp; omega)]
      rw [show (C ++ B0) ++ D = C ++ B0 ++ D from by simp]
      rw [ih C D hpos hlt]
      simp [List.filter_append, hw]
    · rw [show tagIdxsFrom [b] (C.length + B0.length) = [] from by
        simp [tagIdxsFrom, hw]]
      rw [List.append_nil]
      rw [show C ++ (B0 ++ [b]) ++ D = C ++ B0 ++ (b :: D) from by simp]
      rw [ih C (b :: D) hpos hlt]
      simp [List.filter_append, hw]

theorem deleteIdxs_low (A : List (List Char)) :
    ∀ (D : List (List Char)) (m : Nat),
      deleteIdxs (tagIdxsFrom A 0).reverse (A ++ D) (A.length + m) =
        (A.filter (fun l => !wholeLineCanonMatch l) ++ D,
          (A.filter (fun l => !wholeLineCanonMatch l)).length + m) := by
  induction A using List.reverseRecOn with
  | nil =>
    intro D m
    simp [tagIdxsFrom, deleteIdxs]
  | append_singleton A0 a ih =>
    intro D m
    rw [tagIdxsFrom_append A0 [a]]
    by_cases hw : wholeLineCanonMatch a = true
    · rw [show tagIdxsFrom [a] (0 + A0.length) = [A0.length] from by
        simp [tagIdxsFrom, hw]]
      rw [List.reverse_append]
      simp only [List.reverse_singleton, List.singleton_append]
      rw [deleteIdxs]
      rw [show (A0 ++ [a]) ++ D = A0 ++ a :: D from by simp]
      rw [eraseIdx_concat a D A0]
      rw [if_pos (by simp; omega)]
      rw [show (A0 ++ [a]).length + m - 1 = A0.length + m from by simp]
      rw [ih D m]
      simp [List.filter_append, hw]
    · rw [show tagIdxsFrom [a] (0 + A0.length) = [] from by simp [tagIdxsFrom, hw]]
      rw [List.append_nil]
      rw [show (A0 ++ [a]) ++ D = A0 ++ (a :: D) from by simp]
      rw [show (A0 ++ [a]).length + m = A0.length + (m + 1) from by simp; omega]
      rw [ih (a :: D) (m + 1)]
      simp [List.filter_append, hw]
      omega

/-! ## `readlines` and `writelines` round trip -/

theorem pySplitAux_nl {m : List Char} (hm : '\n' ∉ m) :
    ∀ (acc rest : List Char), pySplitAux (m ++ '\n' :: rest) acc =
      (acc.reverse ++ m ++ ['\n']) :: pySplitAux rest [] := by
  induction m with
  | nil =>
    intro acc rest
    rw [List.nil_append, pySplitAux, if_pos rfl]
    simp
  | cons c m2 ih =>
    intro acc rest
    have hc : c ≠ '\n' := by
      intro hcc
      exact hm (hcc ▸ List.mem_cons_self c m2)
    rw [List.cons_append, pySplitAux, if_neg hc]
    rw [ih (fun hx => hm (List.mem_cons_of_mem _ hx)) (c :: acc) rest]
    simp

theorem endsNlOnly_decomp {l : List Char} (h : endsNlOnly l = true) :
    ∃ m, l = m ++ ['\n'] ∧ '\n' ∉ m := by
  unfold endsNlOnly at h
  cases hr : l.reverse with
  | nil => rw [hr] at h; simp at h
  | cons c rest =>
    rw [hr] at h
    simp only [Bool.and_eq_true, Bool.not_eq_true', decide_eq_false_iff_not] at h
    obtain ⟨h1, h2⟩ := h
    refine ⟨rest.reverse, ?_, ?_⟩
    · have hl : l = (c :: rest).reverse := by
        rw [← hr, List.reverse_reverse]
      rw [hl, List.reverse_cons]
      simp at h1
      rw [h1]
    · intro hmem
      exact h2 (List.mem_reverse.mp hmem)

theorem pySplit_join {ls : List (List Char)} (h : ∀ l ∈ ls, endsNlOnly l = true) :
    pySplitLines ls.flatten = ls := by
  induction ls with
  | nil => rfl
  | cons l rest ih =>
    obtain ⟨m, hl, hm⟩ := endsNlOnly_decomp (h l (List.mem_cons_self _ _))
    subst hl
    show pySplitAux ((m ++ ['\n']) ++ rest.flatten) [] = _
    rw [show (m ++ ['\n']) ++ rest.flatten = m ++ '\n' :: rest.flatten from by simp]
    rw [pySplitAux_nl hm [] rest.flatten]
    rw [show pySplitAux rest.flatten [] = pySplitLines rest.flatten from rfl]
    rw [ih (fun x hx => h x (List.mem_cons_of_mem _ hx))]
    simp

/-! ## The master characterization of a stamping pass on a classified
document -/

theorem stampDoc_good (tag : List Char) (A : List (List Char)) (hline : List Char)
    (B : List (List Char))
    (hA : ∀ l ∈ A, inertLineB l = true ∨ tagLineB l = true)
    (hh : headLineB hline = true)
    (hB : ∀ l ∈ B, inertLineB l = true ∨ tagLineB l = true) :
    stampDoc tag (A ++ hline :: B) = CreateOutcome.written
      (A.filter (fun l => !wholeLineCanonMatch l) ++ (tag ++ ['\n']) ::
        hline :: B.filter (fun l => !wholeLineCanonMatch l)) := by
  unfold stampDoc
  rw [scanLines_block hA (hline :: B) 0 []]
  simp only [Nat.zero_add, List.nil_append]
  rw [scanLines_cons_head_none hh]
  rw [scanLines_tail hB]
  simp only [Option.map_some']
  have hdel : deleteIdxs ((tagIdxsFrom A 0 ++ tagIdxsFrom B (A.length + 1)).reverse)
      (A ++ hline :: B) A.length =
      (A.filter (fun l => !wholeLineCanonMatch l) ++
        hline :: B.filter (fun l => !wholeLineCanonMatch l),
       (A.filter (fun l => !wholeLineCanonMatch l)).length) := by
    rw [List.reverse_append, deleteIdxs_append]
    have h1 : deleteIdxs (tagIdxsFrom B (A.length + 1)).reverse (A ++ hline :: B)
        A.length =
        (A ++ hline :: B.filter (fun l => !wholeLineCanonMatch l), A.length) := by
      have hstep := deleteIdxs_high B (A ++ [hline]) [] A.length (by simp)
      rw [show (A ++ [hline]).length = A.length + 1 from by simp] at hstep
      rw [show (A ++ [hline]) ++ B ++ [] = A ++ hline :: B from by simp] at hstep
      rw [show (A ++ [hline]) ++ B.filter (fun l => !wholeLineCanonMatch l) ++ [] =
        A ++ hline :: B.filter (fun l => !wholeLineCanonMatch l) from by simp] at hstep
      exact hstep
    rw [h1]
    have h2 := deleteIdxs_low A (hline :: B.filter (fun l => !wholeLineCanonMatch l)) 0
    rw [Nat.add_zero, Nat.add_zero] at h2
    exact h2
  show CreateOutcome.written
      (pyInsert (deleteIdxs ((tagIdxsFrom A 0 ++ tagIdxsFrom B (A.length + 1)).reverse)
          (A ++ hline :: B) A.length).2 (tag ++ ['\n'])
        (deleteIdxs ((tagIdxsFrom A 0 ++ tagIdxsFrom B (A.length + 1)).reverse)
          (A ++ hline :: B) A.length).1) = _
  rw [hdel]
  unfold pyInsert
  rw [List.take_left, List.drop_left]
  simp

theorem tagOK_facts {tag : List Char} (h : tagOKb tag = true) :
    tagLineB (tag ++ ['\n']) = true ∧ (canonScan (tag ++ ['\n'])).2.2 = 1 := by
  unfold tagOKb at h
  simp only [Bool.and_eq_true, beq_iff_eq] at h
  exact ⟨h.1, h.2⟩

theorem filter_classified {A : List (List Char)}
    (hA : ∀ l ∈ A, inertLineB l = true ∨ tagLineB l = true) :
    ∀ l ∈ A.filter (fun l => !wholeLineCanonMatch l), inertLineB l = true := by
  intro l hl
  obtain ⟨hmem, hw⟩ := List.mem_filter.mp hl
  rcases hA l hmem with hi | ht
  · exact hi
  · exfalso
    have h2 := (tag_facts ht).2.1
    simp [h2] at hw

theorem filter_classified_self (A : List (List Char)) :
    (A.filter (fun l => !wholeLineCanonMatch l)).filter
      (fun l => !wholeLineCanonMatch l) = A.filter (fun l => !wholeLineCanonMatch l) := by
  rw [List.filter_eq_self]
  intro l hl
  exact (List.mem_filter.mp hl).2

theorem stampDoc_good_fix (tag : List Char) (A : List (List Char))
    (hline : List Char) (B : List (List Char))
    (hA : ∀ l ∈ A, inertLineB l = true ∨ tagLineB l = true)
    (hh : headLineB hline = true)
    (hB : ∀ l ∈ B, inertLineB l = true ∨ tagLineB l = true)
    (htag : tagOKb tag = true) :
    stampDoc tag (A.filter (fun l => !wholeLineCanonMatch l) ++ (tag ++ ['\n']) ::
      hline :: B.filter (fun l => !wholeLineCanonMatch l)) =
    CreateOutcome.written (A.filter (fun l => !wholeLineCanonMatch l) ++
      (tag ++ ['\n']) :: hline :: B.filter (fun l => !wholeLineCanonMatch l)) := by
  have htl : tagLineB (tag ++ ['\n']) = true := (tagOK_facts htag).1
  have hA2 : ∀ l ∈ A.filter (fun l => !wholeLineCanonMatch l) ++ [tag ++ ['\n']],
      inertLineB l = true ∨ tagLineB l = true := by
    intro l hl
    rcases List.mem_append.mp hl with h | h
    · exact Or.inl (filter_classified hA l h)
    · rcases List.mem_singleton.mp h with rfl
      exact Or.inr htl
  have hB2 : ∀ l ∈ B.filter (fun l => !wholeLineCanonMatch l),
      inertLineB l = true ∨ tagLineB l = true :=
    fun l hl => Or.inl (filter_classified hB l hl)
  have happ := stampDoc_good tag
    (A.filter (fun l => !wholeLineCanonMatch l) ++ [tag ++ ['\n']]) hline
    (B.filter (fun l => !wholeLineCanonMatch l)) hA2 hh hB2
  rw [show (A.filter (fun l => !wholeLineCanonMatch l) ++ [tag ++ ['\n']]) ++
      hline :: B.filter (fun l => !wholeLineCanonMatch l) =
    A.filter (fun l => !wholeLineCanonMatch l) ++ (tag ++ ['\n']) ::
      hline :: B.filter (fun l => !wholeLineCanonMatch l) from by simp] at happ
  rw [happ]
  rw [List.filter_append, filter_classified_self A, filter_classified_self B]
  rw [show List.filter (fun l => !wholeLineCanonMatch l) [tag ++ ['\n']] = [] from by
    simp [List.filter, (tag_facts htl).2.1]]
  simp

theorem stampFile_fix {tag c : List Char} (hg : GoodDoc c) (ht : tagOKb tag = true) :
    stampDoc tag (pySplitLines c) =
      CreateOutcome.written (pySplitLines (stampFile tag c)) ∧
    stampDoc tag (pySplitLines (stampFile tag c)) =
      CreateOutcome.written (pySplitLines (stampFile tag c)) ∧
    (pySplitLines (stampFile tag c)).flatten = stampFile tag c := by
  obtain ⟨A, hline, B, hsplit, hA, hh, hB⟩ := hg
  have h1 : stampDoc tag (pySplitLines c) = CreateOutcome.written
      (A.filter (fun l => !wholeLineCanonMatch l) ++ (tag ++ ['\n']) ::
        hline :: B.filter (fun l => !wholeLineCanonMatch l)) := by
    rw [hsplit]
    exact stampDoc_good tag A hline B hA hh hB
  have hout : ∀ l ∈ A.filter (fun l => !wholeLineCanonMatch l) ++ (tag ++ ['\n']) ::
      hline :: B.filter (fun l => !wholeLineCanonMatch l), endsNlOnly l = true := by
    intro l hl
    rcases List.mem_append.mp hl with h | h
    · exact ((inert_facts (filter_classified hA l h)).2.2.2.2.2)
    · rcases List.mem_cons.mp h with rfl | h2
      · exact (tag_facts (tagOK_facts ht).1).2.2.2.2
      · rcases List.mem_cons.mp h2 with rfl | h3
        · exact (head_facts hh).2.2.2.2
        · exact ((inert_facts (filter_classified hB l h3)).2.2.2.2.2)
  have hsf : stampFile tag c = (A.filter (fun l => !wholeLineCanonMatch l) ++
      (tag ++ ['\n']) :: hline :: B.filter (fun l => !wholeLineCanonMatch l)).flatten := by
    unfold stampFile
    rw [h1]
  have hsp : pySplitLines (stampFile tag c) =
      A.filter (fun l => !wholeLineCanonMatch l) ++ (tag ++ ['\n']) ::
        hline :: B.filter (fun l => !wholeLineCanonMatch l) := by
    rw [hsf]
    exact pySplit_join hout
  refine ⟨?_, ?_, ?_⟩
  · rw [h1, hsp]
  · rw [hsp]
    exact stampDoc_good_fix tag A hline B hA hh hB ht
  · rw [hsp, ← hsf]

/-! ## Claim theorem C2 (amended) -/

/-- C2 (amended): for a document whose lines are classified — inert lines,
whole-line canonical tags, one whole-line head closing tag — and a well formed
rendered tag, `create_canonical_tag` writes the document in which every
whole-line canonical tag is deleted, the fresh tag is inserted directly above
the head closing line, every other line is preserved verbatim, and exactly
one canonical tag remains.  (As stated over all documents the claim fails:
see the counterexample, where the head marker sits inside a canonical tag
line, the pass dies with an `IndexError` and both tags remain.) -/
theorem stamp_exactly_one_canonical
    (base cur p : List String) (version : String) (useAbs : Bool) (fs : FS)
    (c : List Char) (A : List (List Char)) (hline : List Char) (B : List (List Char))
    (hc : lookupFS fs p = some c)
    (hsplit : pySplitLines c = A ++ hline :: B)
    (hA : ∀ l ∈ A, inertLineB l = true ∨ tagLineB l = true)
    (hh : headLineB hline = true)
    (hB : ∀ l ∈ B, inertLineB l = true ∨ tagLineB l = true)
    (htag : tagOKb (theTag base cur p version useAbs) = true) :
    create_canonical_tag base cur p version useAbs fs =
      some (writeFS fs p
        (A.filter (fun l => !wholeLineCanonMatch l) ++
          (theTag base cur p version useAbs ++ ['\n']) ::
          hline :: B.filter (fun l => !wholeLineCanonMatch l)).flatten) ∧
    canonCountDoc
      (A.filter (fun l => !wholeLineCanonMatch l) ++
        (theTag base cur p version useAbs ++ ['\n']) ::
        hline :: B.filter (fun l => !wholeLineCanonMatch l)) = 1 := by
  have hst : stampDoc (theTag base cur p version useAbs) (pySplitLines c) =
      CreateOutcome.written
        (A.filter (fun l => !wholeLineCanonMatch l) ++
          (theTag base cur p version useAbs ++ ['\n']) ::
          hline :: B.filter (fun l => !wholeLineCanonMatch l)) := by
    rw [hsplit]
    exact stampDoc_good _ A hline B hA hh hB
  constructor
  · unfold create_canonical_tag
    rw [hc]
    simp only []
    unfold theTag at hst
    rw [hst]
    rfl
  · unfold canonCountDoc
    rw [List.map_append, List.sum_append, List.map_cons, List.sum_cons,
      List.map_cons, List.sum_cons]
    rw [List.sum_eq_zero ?za, List.sum_eq_zero ?zb]
    · rw [(tagOK_facts htag).2, (head_facts hh).2.2.1]
      omega
    case za =>
      intro x hx
      obtain ⟨l, hl, rfl⟩ := List.mem_map.mp hx
      exact (inert_facts (filter_classified hA l hl)).2.2.1
    case zb =>
      intro x hx
      obtain ⟨l, hl, rfl⟩ := List.mem_map.mp hx
      exact (inert_facts (filter_classified hB l hl)).2.2.1

theorem one_canonical_witness :
    create_canonical_tag (["docs"]) (["docs", "latest"]) (["docs", "latest", "g.html"])
      ("latest") true
      [(["docs", "latest", "g.html"],
        ("<html>\n<head>\n<link rel=\"canonical\" href=\"old\">\n</head>\n<body>\n</body>\n</html>\n").data)] =
      some (writeFS
        [(["docs", "latest", "g.html"],
          ("<html>\n<head>\n<link rel=\"canonical\" href=\"old\">\n</head>\n<body>\n</body>\n</html>\n").data)]
        (["docs", "latest", "g.html"])
        (([("<html>\n").data, ("<head>\n").data].filter (fun l => !wholeLineCanonMatch l) ++
          (theTag (["docs"]) (["docs", "latest"]) (["docs", "latest", "g.html"])
            ("latest") true ++ ['\n']) ::
          ("</head>\n").data ::
          [("<body>\n").data, ("</body>\n").data, ("</html>\n").data].filter
            (fun l => !wholeLineCanonMatch l)).flatten)) ∧
    canonCountDoc
      ([("<html>\n").data, ("<head>\n").data].filter (fun l => !wholeLineCanonMatch l) ++
        (theTag (["docs"]) (["docs", "latest"]) (["docs", "latest", "g.html"])
          ("latest") true ++ ['\n']) ::
        ("</head>\n").data ::
        [("<body>\n").data, ("</body>\n").data, ("</html>\n").data].filter
          (fun l => !wholeLineCanonMatch l)) = 1 :=
  stamp_exactly_one_canonical (["docs"]) (["docs", "latest"])
    (["docs", "latest", "g.html"]) ("latest") true
    ([(["docs", "latest", "g.html"],
      ("<html>\n<head>\n<link rel=\"canonical\" href=\"old\">\n</head>\n<body>\n</body>\n</html>\n").data)])
    (("<html>\n<head>\n<link rel=\"canonical\" href=\"old\">\n</head>\n<body>\n</body>\n</html>\n").data)
    ([("<html>\n").data, ("<head>\n").data, ("<link rel=\"canonical\" href=\"old\">\n").data])
    (("</head>\n").data)
    ([("<body>\n").data, ("</body>\n").data, ("</html>\n").data])
    (by decide) (by decide) (by decide) (by decide) (by decide) (by decide)

/-! ## Walker lemmas -/

theorem lookupFS_of_mem :
    ∀ {fs : FS}, (fs.map Prod.fst).Nodup → ∀ {p : List String} {c : List Char},
      (p, c) ∈ fs → lookupFS fs p = some c := by
  intro fs
  induction fs with
  | nil =>
    intro _ p c h
    simp at h
  | cons e rest ih =>
    intro hnd p c h
    obtain ⟨a, d⟩ := e
    rcases List.mem_cons.mp h with he | hrest
    · injection he with h1 h2
      subst h1
      subst h2
      rw [lookupFS, if_pos rfl]
    · have ha : a ≠ p := by
        intro hap
        subst hap
        exact (List.nodup_cons.mp hnd).1 (List.mem_map.mpr ⟨(a, c), hrest, rfl⟩)
      rw [lookupFS, if_neg ha]
      exact ih (List.nodup_cons.mp hnd).2 hrest

theorem canonicalTargets_mem {cur : List String} {fs : FS} {p : List String}
    (h : p ∈ canonicalTargets cur fs) :
    ∃ c, (p, c) ∈ fs ∧
      (underDir cur p && endsWithL ((".html").data) (fileName p).data) = true := by
  unfold canonicalTargets at h
  obtain ⟨e, he, rfl⟩ := List.mem_map.mp h
  obtain ⟨hmem, hp⟩ := List.mem_filter.mp he
  exact ⟨e.2, hmem, hp⟩

theorem canonicalTargets_nodup {cur : List String} {fs : FS}
    (hnd : (fs.map Prod.fst).Nodup) : (canonicalTargets cur fs).Nodup :=
  List.Nodup.sublist (List.Sublist.map _ (List.filter_sublist _)) hnd

theorem targets_keysEq {cur : List String} :
    ∀ {fs gs : FS}, fs.map Prod.fst = gs.map Prod.fst →
      canonicalTargets cur fs = canonicalTargets cur gs := by
  intro fs
  induction fs with
  | nil =>
    intro gs h
    cases gs with
    | nil => rfl
    | cons g gs2 => simp at h
  | cons e fs2 ih =>
    intro gs h
    cases gs with
    | nil => simp at h
    | cons g gs2 =>
      simp only [List.map_cons, List.cons.injEq] at h
      obtain ⟨h1, h2⟩ := h
      show ((e :: fs2).filter
          (fun x => underDir cur x.1 && endsWithL ((".html").data) (fileName x.1).data)).map
          Prod.fst =
        ((g :: gs2).filter
          (fun x => underDir cur x.1 && endsWithL ((".html").data) (fileName x.1).data)).map
          Prod.fst
      rw [List.filter_cons, List.filter_cons]
      by_cases hp : (underDir cur e.1 && endsWithL ((".html").data) (fileName e.1).data) = true
      · rw [if_pos hp, if_pos (by rw [← h1]; exact hp)]
        simp only [List.map_cons]
        rw [h1]
        exact congrArg (List.cons g.1) (ih h2)
      · rw [if_neg hp, if_neg (by rw [← h1]; exact hp)]
        exact ih h2

theorem walkFoldC_gen (base cur : List String) (version : String) (useAbs : Bool) :
    ∀ (ps : List (List String)) (fs : FS), ps.Nodup →
      (∀ p ∈ ps, ∃ c, lookupFS fs p = some c ∧
        stampDoc (theTag base cur p version useAbs) (pySplitLines c) ≠
          CreateOutcome.indexError) →
      ∃ fs1, walkFoldC base cur version useAbs ps fs = some fs1 ∧
        fs1.map Prod.fst = fs.map Prod.fst ∧
        (∀ q, q ∉ ps → lookupFS fs1 q = lookupFS fs q) ∧
        (∀ p ∈ ps, ∃ c, lookupFS fs p = some c ∧
          lookupFS fs1 p = some (stampFile (theTag base cur p version useAbs) c)) := by
  intro ps
  induction ps with
  | nil =>
    intro fs _ _
    exact ⟨fs, rfl, rfl, fun _ _ => rfl, by simp⟩
  | cons p ps2 ih =>
    intro fs hnd hmem
    obtain ⟨c, hc, hne⟩ := hmem p (List.mem_cons_self _ _)
    have hcreate : create_canonical_tag base cur p version useAbs fs =
        some (writeFS fs p (stampFile (theTag base cur p version useAbs) c)) := by
      unfold create_canonical_tag
      rw [hc]
      simp only []
      unfold stampFile theTag
      unfold theTag at hne
      cases hout : stampDoc (mkCanonicalTag (theCanonicalUrl base cur p version useAbs))
          (pySplitLines c) with
      | refreshSkip =>
        show some fs = some (writeFS fs p c)
        rw [writeFS_self hc]
      | missingHead =>
        show some fs = some (writeFS fs p c)
        rw [writeFS_self hc]
      | indexError => exact absurd hout hne
      | written ls => rfl
    have hkeys1 : (writeFS fs p (stampFile (theTag base cur p version useAbs) c)).map
        Prod.fst = fs.map Prod.fst :=
      writeFS_keys (by rw [hc]; rfl)
    have hmem2 : ∀ r ∈ ps2,
        ∃ c2, lookupFS (writeFS fs p (stampFile (theTag base cur p version useAbs) c)) r =
          some c2 ∧
        stampDoc (theTag base cur r version useAbs) (pySplitLines c2) ≠
          CreateOutcome.indexError := by
      intro r hr
      have hrp : r ≠ p := by
        intro hh2
        exact (List.nodup_cons.mp hnd).1 (hh2 ▸ hr)
      obtain ⟨c2, hc2, hne2⟩ := hmem r (List.mem_cons_of_mem _ hr)
      refine ⟨c2, ?_, hne2⟩
      rw [lookupFS_writeFS, if_neg hrp]
      exact hc2
    obtain ⟨fs1, hw, hk, houtside, hres⟩ :=
      ih (writeFS fs p (stampFile (theTag base cur p version useAbs) c))
        (List.nodup_cons.mp hnd).2 hmem2
    refine ⟨fs1, ?_, ?_, ?_, ?_⟩
    · rw [walkFoldC, hcreate]
      exact hw
    · rw [hk, hkeys1]
    · intro q hq
      have hq1 : q ∉ ps2 := fun h2 => hq (List.mem_cons_of_mem _ h2)
      have hqp : q ≠ p := fun h2 => hq (h2 ▸ List.mem_cons_self _ _)
      rw [houtside q hq1, lookupFS_writeFS, if_neg hqp]
    · intro r hr
      rcases List.mem_cons.mp hr with rfl | hr2
      · refine ⟨c, hc, ?_⟩
        have hp2 : r ∉ ps2 := (List.nodup_cons.mp hnd).1
        rw [houtside r hp2, lookupFS_writeFS, if_pos rfl]
      · obtain ⟨c2, hc2, hres2⟩ := hres r hr2
        have hrp : r ≠ p := by
          intro hh2
          exact (List.nodup_cons.mp hnd).1 (hh2 ▸ hr2)
        rw [lookupFS_writeFS, if_neg hrp] at hc2
        exact ⟨c2, hc2, hres2⟩

theorem walkFoldC_stable (base cur : List String) (version : String) (useAbs : Bool) :
    ∀ (ps : List (List String)) (fs : FS),
      (∀ p ∈ ps, ∃ c, lookupFS fs p = some c ∧
        stampDoc (theTag base cur p version useAbs) (pySplitLines c) =
          CreateOutcome.written (pySplitLines c) ∧ (pySplitLines c).flatten = c) →
      walkFoldC base cur version useAbs ps fs = some fs := by
  intro ps
  induction ps with
  | nil => intro fs _; rfl
  | cons p ps2 ih =>
    intro fs hmem
    obtain ⟨c, hc, hs, hf⟩ := hmem p (List.mem_cons_self _ _)
    have hcreate : create_canonical_tag base cur p version useAbs fs = some fs := by
      unfold create_canonical_tag
      rw [hc]
      simp only []
      unfold theTag at hs
      rw [hs]
      show some (writeFS fs p (pySplitLines c).flatten) = some fs
      rw [hf, writeFS_self hc]
    rw [walkFoldC, hcreate]
    exact ih fs (fun r hr => hmem r (List.mem_cons_of_mem _ hr))

/-! ## Claim theorem C1 (amended) -/

/-- C1 (amended): on a tree whose `.html` documents each consist of classified
lines — inert lines, whole-line canonical tags, one whole-line head closing
tag — with well formed rendered tags, the canonical stamping pass is
idempotent: a second run reproduces the first run's filesystem byte for byte.
(As stated over every tree the claim fails: see the counterexample, where a
head closing tag shares its line with a canonical tag, the inline removal
regex swallows the newline and the second pass deletes the merged line.) -/
theorem canonical_walker_idempotent (base cur : List String) (version : String)
    (useAbs : Bool) (fs : FS)
    (hnd : (fs.map Prod.fst).Nodup)
    (hgood : ∀ p ∈ canonicalTargets cur fs, ∃ c, lookupFS fs p = some c ∧
      GoodDoc c ∧ tagOKb (theTag base cur p version useAbs) = true) :
    ∃ fs1, canonical_tag_walker base cur version useAbs fs = some fs1 ∧
      canonical_tag_walker base cur version useAbs fs1 = some fs1 := by
  have hmem : ∀ p ∈ canonicalTargets cur fs, ∃ c, lookupFS fs p = some c ∧
      stampDoc (theTag base cur p version useAbs) (pySplitLines c) ≠
        CreateOutcome.indexError := by
    intro p hp
    obtain ⟨c, hc, hg, ht⟩ := hgood p hp
    refine ⟨c, hc, ?_⟩
    rw [(stampFile_fix hg ht).1]
    simp
  obtain ⟨fs1, hw, hk, houtside, hres⟩ :=
    walkFoldC_gen base cur version useAbs (canonicalTargets cur fs) fs
      (canonicalTargets_nodup hnd) hmem
  refine ⟨fs1, hw, ?_⟩
  show walkFoldC base cur version useAbs (canonicalTargets cur fs1) fs1 = some fs1
  rw [targets_keysEq hk]
  refine walkFoldC_stable base cur version useAbs _ fs1 ?_
  intro p hp
  obtain ⟨c, hc, hg, ht⟩ := hgood p hp
  obtain ⟨c2, hc2, hres1⟩ := hres p hp
  have hcc : c2 = c := by
    rw [hc] at hc2
    exact (Option.some.inj hc2).symm
  subst hcc
  exact ⟨stampFile (theTag base cur p version useAbs) c2, hres1,
    (stampFile_fix hg ht).2.1, (stampFile_fix hg ht).2.2⟩

theorem walker_idempotent_witness :
    ∃ fs1, canonical_tag_walker (["docs"]) (["docs", "latest"]) ("latest") true
      [(["docs", "latest", "g.html"],
        ("<html>\n<head>\n<link rel=\"canonical\" href=\"old\">\n</head>\n<body>\n</body>\n</html>\n").data)] =
      some fs1 ∧
    canonical_tag_walker (["docs"]) (["docs", "latest"]) ("latest") true fs1 = some fs1 :=
  canonical_walker_idempotent (["docs"]) (["docs", "latest"]) ("latest") true
    [(["docs", "latest", "g.html"],
      ("<html>\n<head>\n<link rel=\"canonical\" href=\"old\">\n</head>\n<body>\n</body>\n</html>\n").data)]
    (by decide)
    (by
      intro p hp
      rw [show canonicalTargets (["docs", "latest"])
          [(["docs", "latest", "g.html"],
            ("<html>\n<head>\n<link rel=\"canonical\" href=\"old\">\n</head>\n<body>\n</body>\n</html>\n").data)] =
        [(["docs", "latest", "g.html"] : List String)] from by decide] at hp
      rcases List.mem_singleton.mp hp with rfl
      refine ⟨("<html>\n<head>\n<link rel=\"canonical\" href=\"old\">\n</head>\n<body>\n</body>\n</html>\n").data,
        by decide,
        ⟨[("<html>\n").data, ("<head>\n").data, ("<link rel=\"canonical\" href=\"old\">\n").data],
          ("</head>\n").data,
          [("<body>\n").data, ("</body>\n").data, ("</html>\n").data],
          by decide, by decide, by decide, by decide⟩,
        by decide⟩)

/-! ## Claim theorem C7 (amended) -/

theorem firstHeadIdx_append_none {X Y : List Char}
    (h : firstHeadIdx (X ++ Y) = none) : firstHeadIdx Y = none := by
  induction X with
  | nil => exact h
  | cons c X2 ih =>
    rw [List.cons_append, firstHeadIdx] at h
    by_cases hs : startsWithL (("</head>").data) (c :: (X2 ++ Y)) = true
    · rw [if_pos hs] at h
      exact absurd h (by simp)
    · rw [if_neg hs] at h
      simp only [Option.map_eq_none'] at h
      exact ih h

theorem wholeHead_firstHead {l : List Char} (hw : wholeLineHeadMatch l = true) :
    firstHeadIdx l ≠ none := by
  intro hnone
  unfold wholeLineHeadMatch at hw
  simp only [Bool.or_eq_true, beq_iff_eq] at hw
  have hdw : firstHeadIdx (l.dropWhile pySpace) = none :=
    firstHeadIdx_append_none (X := l.takeWhile pySpace)
      (by rw [List.takeWhile_append_dropWhile]; exact hnone)
  rcases hw with hw | hw <;> rw [hw] at hdw <;> exact absurd hdw (by decide)

theorem scanLines_cons_nohead {l : List Char} (hr : searchMetaRefresh l = false)
    (hh : firstHeadIdx l = none) (rest : List (List Char)) (i : Nat) (ex : List Nat) :
    scanLines (l :: rest) i ex none =
      (scanLines rest (i + 1) (if wholeLineCanonMatch l then ex ++ [i] else ex)
        none).map
        (fun r => ((if wholeLineCanonMatch l then l
          else if (canonScan l).2.2 ≠ 0 then (canonScan l).1 else l) :: r.1, r.2)) := by
  have hwh : wholeLineHeadMatch l = false := by
    cases hwl : wholeLineHeadMatch l
    · rfl
    · exact absurd hh (wholeHead_firstHead hwl)
  rw [scanLines]
  simp [hr, hwh, hh]

theorem scanLines_nohead {L : List (List Char)}
    (h1 : ∀ l ∈ L, searchMetaRefresh l = false)
    (h2 : ∀ l ∈ L, firstHeadIdx l = none) :
    ∀ (i : Nat) (ex : List Nat), ∃ L2 ex2,
      scanLines L i ex none = some (L2, ex2, none) := by
  induction L with
  | nil => intro i ex; exact ⟨[], ex, rfl⟩
  | cons l rest ih =>
    intro i ex
    obtain ⟨L2, ex2, hrec⟩ := ih (fun x hx => h1 x (List.mem_cons_of_mem _ hx))
      (fun x hx => h2 x (List.mem_cons_of_mem _ hx)) (i + 1)
      (if wholeLineCanonMatch l then ex ++ [i] else ex)
    rw [scanLines_cons_nohead (h1 l (List.mem_cons_self _ _))
      (h2 l (List.mem_cons_self _ _)), hrec]
    exact ⟨_, ex2, rfl⟩

/-- C7 (amended): a document with no head closing marker on any line and no
meta refresh marker is left byte identical, the run takes the reported
missing-head branch (the one diagnostic print of the function, lines 186-190),
and the walk over the remaining documents continues unchanged.  (As stated
over every document without a head marker the claim fails: a redirect page
without a head marker is skipped silently, see the counterexample.) -/
theorem missing_head_reported
    (base cur p : List String) (version : String) (useAbs : Bool) (fs : FS)
    (c : List Char) (hc : lookupFS fs p = some c)
    (hnohead : ∀ l ∈ pySplitLines c, firstHeadIdx l = none)
    (hnorefresh : ∀ l ∈ pySplitLines c, searchMetaRefresh l = false) :
    stampDoc (theTag base cur p version useAbs) (pySplitLines c) =
      CreateOutcome.missingHead ∧
    create_canonical_tag base cur p version useAbs fs = some fs ∧
    (∀ ps, walkFoldC base cur version useAbs (p :: ps) fs =
      walkFoldC base cur version useAbs ps fs) := by
  have hsd : stampDoc (theTag base cur p version useAbs) (pySplitLines c) =
      CreateOutcome.missingHead := by
    unfold stampDoc
    obtain ⟨L2, ex2, hsc⟩ := scanLines_nohead hnorefresh hnohead 0 []
    rw [hsc]
  have hcr : create_canonical_tag base cur p version useAbs fs = some fs := by
    unfold create_canonical_tag
    rw [hc]
    simp only []
    unfold theTag at hsd
    rw [hsd]
  refine ⟨hsd, hcr, fun ps => ?_⟩
  rw [walkFoldC, hcr]

theorem missing_head_witness :
    stampDoc (theTag (["docs"]) (["docs", "latest"]) (["docs", "latest", "n.html"])
        ("latest") true) (pySplitLines (("<html>\n<p>x</p>\n").data)) =
      CreateOutcome.missingHead ∧
    create_canonical_tag (["docs"]) (["docs", "latest"]) (["docs", "latest", "n.html"])
      ("latest") true [(["docs", "latest", "n.html"], ("<html>\n<p>x</p>\n").data)] =
      some [(["docs", "latest", "n.html"], ("<html>\n<p>x</p>\n").data)] ∧
    (∀ ps, walkFoldC (["docs"]) (["docs", "latest"]) ("latest") true
        ((["docs", "latest", "n.html"]) :: ps)
        [(["docs", "latest", "n.html"], ("<html>\n<p>x</p>\n").data)] =
      walkFoldC (["docs"]) (["docs", "latest"]) ("latest") true ps
        [(["docs", "latest", "n.html"], ("<html>\n<p>x</p>\n").data)]) :=
  missing_head_reported (["docs"]) (["docs", "latest"]) (["docs", "latest", "n.html"])
    ("latest") true _ (("<html>\n<p>x</p>\n").data) (by decide) (by decide) (by decide)

/-! ## Claim theorem C9 (amended) -/

theorem inheritUrl_safe (pp : PrevParse) (url1 : List Char)
    (h : parseCrash pp = false) : ∃ u, inheritUrl pp url1 = some u := by
  obtain ⟨rc, ch⟩ := pp
  cases rc with
  | none => exact ⟨url1, rfl⟩
  | some contentAttr =>
    cases ch with
    | none => exact ⟨url1, rfl⟩
    | some hrefAttr =>
      cases hrefAttr with
      | none => exact absurd h (by simp [parseCrash])
      | some href =>
        cases contentAttr with
        | none => exact absurd h (by simp [parseCrash])
        | some content => exact ⟨_, rfl⟩

theorem walkFoldR_total (parse : List Char → PrevParse) (base : List String)
    (currentDirname previousDirname currentVersion : String) (useAbs : Bool)
    (productName : Option String) (hsafe : ∀ c, parseCrash (parse c) = false) :
    ∀ (ps : List (List String)) (fs : FS),
      (∀ p ∈ ps, (lookupFS fs p).isSome = true) →
      ∃ fs2, walkFoldR parse base currentDirname previousDirname currentVersion
        useAbs productName ps fs = some fs2 := by
  intro ps
  induction ps with
  | nil => intro fs _; exact ⟨fs, rfl⟩
  | cons p ps2 ih =>
    intro fs hmem
    have hp := hmem p (List.mem_cons_self _ _)
    have hstep : ∃ fs', redirect_removed_file parse base p currentDirname
        previousDirname currentVersion useAbs productName fs = some fs' ∧
        ∀ r, (lookupFS fs r).isSome = true → (lookupFS fs' r).isSome = true := by
      unfold redirect_removed_file
      by_cases hex : (lookupFS fs (generate_canonical_url base p
          (base ++ [previousDirname]) currentDirname).1).isSome = true
      · rw [if_pos hex]
        exact ⟨fs, rfl, fun r h => h⟩
      · rw [if_neg hex]
        cases hlp : lookupFS fs p with
        | none =>
          rw [hlp] at hp
          simp at hp
        | some contents =>
          obtain ⟨u, hu⟩ := inheritUrl_safe (parse contents)
            (if useAbs then '/' :: joinSegs (p.drop base.length)
             else (generate_canonical_url base p
               (base ++ [previousDirname]) currentDirname).2)
            (hsafe contents)
          refine ⟨writeFS fs (generate_canonical_url base p
              (base ++ [previousDirname]) currentDirname).1
              (renderRedirect u currentVersion productName), ?_, ?_⟩
          · show (match inheritUrl (parse contents)
                (if useAbs then '/' :: joinSegs (p.drop base.length)
                 else (generate_canonical_url base p
                   (base ++ [previousDirname]) currentDirname).2) with
              | none => none
              | some url2 => some (writeFS fs (generate_canonical_url base p
                  (base ++ [previousDirname]) currentDirname).1
                  (renderRedirect url2 currentVersion productName))) =
              some (writeFS fs (generate_canonical_url base p
                (base ++ [previousDirname]) currentDirname).1
                (renderRedirect u currentVersion productName))
            rw [hu]
          · intro r h
            rw [lookupFS_writeFS]
            by_cases hr2 : r = (generate_canonical_url base p
                (base ++ [previousDirname]) currentDirname).1
            · rw [if_pos hr2]
              rfl
            · rw [if_neg hr2]
              exact h
    obtain ⟨fs', hstep1, hpres⟩ := hstep
    obtain ⟨fs2, hrec⟩ := ih fs'
      (fun r hr => hpres r (hmem r (List.mem_cons_of_mem _ hr)))
    refine ⟨fs2, ?_⟩
    rw [walkFoldR, hstep1]
    exact hrec

/-- C9 (amended): the canonical walker visits exactly the `.html` files below
its directory — every other path keeps its contents — while the redirect
walker visits the files whose names end in `html` (line 319 has no dot, so
`x.xhtml` is also visited, see the counterexample); and the per document skip
conditions do not halt either walk: both walkers run to completion whenever no
visited document triggers the index crash, every file the redirect walker
reads is present, and no document parses to the configuration that raises the
`KeyError` of line 254 (both tags found but the canonical link lacking `href`
or the refresh tag lacking `content`), which would halt the redirect walk. -/
theorem walkers_visit_and_continue
    (base cur : List String) (version : String) (useAbs : Bool)
    (parse : List Char → PrevParse)
    (currentDirname previousDirname currentVersion : String)
    (useAbsR : Bool) (productName : Option String) (fs : FS)
    (hsafe : ∀ c, parseCrash (parse c) = false)
    (hnd : (fs.map Prod.fst).Nodup)
    (hcanon : ∀ p ∈ canonicalTargets cur fs, ∃ c, lookupFS fs p = some c ∧
      stampDoc (theTag base cur p version useAbs) (pySplitLines c) ≠
        CreateOutcome.indexError)
    (hred : ∀ p ∈ redirectTargets (base ++ [previousDirname]) fs,
      (lookupFS fs p).isSome = true) :
    (∃ fs1, canonical_tag_walker base cur version useAbs fs = some fs1 ∧
      ∀ q, q ∉ canonicalTargets cur fs → lookupFS fs1 q = lookupFS fs q) ∧
    (∃ fs2, redirect_removed_walker parse base currentDirname previousDirname
      currentVersion useAbsR productName fs = some fs2) := by
  constructor
  · obtain ⟨fs1, hw, -, houtside, -⟩ := walkFoldC_gen base cur version useAbs
      (canonicalTargets cur fs) fs (canonicalTargets_nodup hnd) hcanon
    exact ⟨fs1, hw, houtside⟩
  · exact walkFoldR_total parse base currentDirname previousDirname currentVersion
      useAbsR productName hsafe (redirectTargets (base ++ [previousDirname]) fs) fs
      hred

theorem walkers_witness :
    (∃ fs1, canonical_tag_walker (["docs"]) (["docs", "latest"]) ("latest") true c5Fs =
      some fs1 ∧
      ∀ q, q ∉ canonicalTargets (["docs", "latest"]) c5Fs →
        lookupFS fs1 q = lookupFS c5Fs q) ∧
    (∃ fs2, redirect_removed_walker plainParse (["docs"]) ("latest") ("27") ("28")
      true none c5Fs = some fs2) :=
  walkers_visit_and_continue (["docs"]) (["docs", "latest"]) ("latest") true
    plainParse ("latest") ("27") ("28") true none c5Fs (fun _ => rfl) (by decide)
    (by
      intro p hp
      rw [show canonicalTargets (["docs", "latest"]) c5Fs = ([] : List (List String))
        from by decide] at hp
      exact absurd hp (List.not_mem_nil _))
    (by decide)
